import Mathlib

/-!
# Verification of the oarkflow/container agent execution pipeline

A shallow embedding of the security-bearing parts of the agent
(`pkg/isolate/agent`): the Go `path/filepath` Unix primitives used by the
validator (`Clean`, `Join`, `Rel`, `Base`, `IsAbs`), the request validator
`validatePaths` and interpreter/shell policies (`ipc_server.go`), the chroot
command preparation (`chroot.go`), the environment merge (`env.go`), the
bounded output collector (`ipc_client.go`), the per-connection frame state
machine (`ipc_server.go`), and the frame codec (`protocol.go`).

Strings are modelled as Lean `String`s; Go's byte-level operations on ASCII
path strings coincide with the character-level operations used here.  Byte
payloads are modelled as `List Nat` with values below 256.
-/

deriving instance DecidableEq for Except

namespace Container

/-! ## Go `path/filepath` model (Unix rules)

`splitSep` splits a character list at `'/'`, mirroring how Go's `Clean`,
`Rel` and `Base` walk a path separator by separator.  A path is represented
by its absoluteness flag together with its separator-delimited components.
-/

def pathSep : Char := '/'

/-- Split a character list on the path separator.  The result is the list of
(possibly empty) segments between separators; it is always nonempty. -/
def splitSep : List Char → List (List Char)
  | [] => [[]]
  | c :: cs =>
    if c = pathSep then [] :: splitSep cs
    else
      match splitSep cs with
      | [] => [[c]]
      | x :: xs => (c :: x) :: xs

/-- The nonempty separator-delimited components of a path string (Go keeps
`"."` and `".."` as ordinary components at this stage). -/
def pathParts (p : String) : List String :=
  ((splitSep p.toList).map (fun l => String.mk l)).filter (fun s => s ≠ "")

/-- Go `filepath.IsAbs` on Unix: the path begins with `'/'`. -/
def isAbs (p : String) : Bool :=
  match p.toList with
  | [] => false
  | c :: _ => c = pathSep

/-- One step of Go `filepath.Clean`'s component processing.  The accumulator
holds the output components in reverse order.  `""` and `"."` are dropped;
`".."` pops the previous component, except that a relative path keeps a
leading run of `".."`s and an absolute path drops `".."` at the root. -/
def cleanStep (abs : Bool) (acc : List String) (c : String) : List String :=
  if c = "" || c = "." then acc
  else if c = ".." then
    match acc with
    | [] => if abs then [] else [".."]
    | a :: rest => if a = ".." then c :: a :: rest else rest
  else c :: acc

/-- The component list of `filepath.Clean` applied to a path with the given
absoluteness and components. -/
def cleanParts (abs : Bool) (cs : List String) : List String :=
  (cs.foldl (cleanStep abs) []).reverse

/-- Join components with `'/'`. -/
def joinParts : List String → String
  | [] => ""
  | [c] => c
  | c :: cs => c ++ "/" ++ joinParts cs

/-- Render an absoluteness flag and component list back into a path string,
as Go `Clean` does: an empty absolute path is `"/"`, an empty relative path
is `"."`. -/
def renderPath (abs : Bool) (cs : List String) : String :=
  if abs then "/" ++ joinParts cs
  else if cs = [] then "." else joinParts cs

/-- Go `filepath.Clean` (Unix). -/
def clean (p : String) : String :=
  renderPath (isAbs p) (cleanParts (isAbs p) (pathParts p))

/-- Go `filepath.Join` restricted to two elements, as used by the agent:
non-empty elements are joined with `'/'` and the result cleaned; all-empty
input yields `""`. -/
def joinPath (a b : String) : String :=
  if a = "" && b = "" then ""
  else if a = "" then clean b
  else if b = "" then clean a
  else clean (a ++ "/" ++ b)

/-- Go `filepath.Base` (Unix): the last component; `"."` for the empty path
and `"/"` for a path made of separators only. -/
def basePath (p : String) : String :=
  if p = "" then "."
  else
    match (pathParts p).getLast? with
    | some c => c
    | none => "/"

/-- Strip the longest common component prefix from two component lists,
mirroring the element-comparison loop of Go `filepath.Rel`. -/
def dropCommonPrefix : List String → List String → List String × List String
  | a :: as, b :: bs => if a = b then dropCommonPrefix as bs else (a :: as, b :: bs)
  | as, bs => (as, bs)

/-- Go `strings.HasPrefix` (ASCII paths: byte prefix = character prefix). -/
def strHasPrefix (s pre : String) : Bool := pre.toList.isPrefixOf s.toList

/-- Go `strings.HasSuffix`. -/
def strHasSuffix (s suf : String) : Bool := suf.toList.isSuffixOf s.toList

/-- Go `strings.Contains` with a one-character needle. -/
def strContainsChar (s : String) (c : Char) : Bool := s.toList.contains c

/-- Go `filepath.Rel` (Unix), on cleaned inputs expressed through their
components.  Returns `none` where Go returns an error: when exactly one of
the two cleaned paths is absolute, or when the first unshared base
component is `".."`. -/
def relPath (base targ : String) : Option String :=
  if clean base = clean targ then some "."
  else if isAbs (clean base) ≠ isAbs (clean targ) then none
  else
    match dropCommonPrefix (if clean base = "." then [] else pathParts (clean base))
        (pathParts (clean targ)) with
    | ([], trest) => some (joinParts trest)
    | (b0 :: brest, trest) =>
      if b0 = ".." then none
      else some (joinParts (List.replicate (b0 :: brest).length ".." ++ trest))

/-- The escape test used throughout `validatePaths` and
`checkPathWithinRoot`: `filepath.Rel` fails or its result has prefix
`".."`. -/
def escapesRoot (root absPath : String) : Bool :=
  match relPath root absPath with
  | none => true
  | some r => strHasPrefix r ".."

-- Sanity checks against Go behaviour on concrete paths.
example : clean "/tmp//r/../x/." = "/tmp/x" := by decide
example : clean "a/../../b" = "../b" := by decide
example : clean "" = "." := by decide
example : clean "/.." = "/" := by decide
example : joinPath "/tmp/r" "a/b" = "/tmp/r/a/b" := by decide
example : basePath "/usr/bin/python3" = "python3" := by decide
example : basePath "/" = "/" := by decide
example : relPath "/tmp/r" "/tmp/r/sub" = some "sub" := by decide
example : relPath "/tmp/r" "/etc" = some "../../etc" := by decide
example : relPath "/tmp/r" "foo" = none := by decide
example : relPath "/a" "/a" = some "." := by decide
example : escapesRoot "/tmp/r" "/etc/passwd" = true := by decide
example : escapesRoot "/tmp/r" "/tmp/r/x" = false := by decide

/-! ## Exec request validation (`ipc_server.go`) -/

/-- The fields of `execRequestPayload` that the validator and gate read. -/
structure ExecPayload where
  path : String
  args : List String
  env : List (String × String) := []
  workingDir : String := ""
  timeoutMilli : Int := 0
  stream : Bool := false
  user : String := ""
deriving Repr, DecidableEq

/-- The structured counterpart of each `fmt.Errorf` site in `validatePaths`:
the constructor records exactly the data interpolated into the Go error
message. -/
inductive VError where
  | shellDashC
  | shellNoScript
  | wdOutside (wd root : String)
  | cmdEscapes (path root : String)
  | argEscapes (i : Nat) (arg root resolved : String)
deriving Repr, DecidableEq

/-- The `shellCommands` list of `validatePaths`. -/
def shellCommands : List String :=
  ["/bin/sh", "/bin/bash", "/bin/zsh", "sh", "bash", "zsh",
   "cmd.exe", "powershell.exe", "pwsh.exe", "cmd", "powershell", "pwsh"]

/-- The shell detection of `validatePaths`: `strings.HasSuffix(path, shell)
|| path == shell` over `shellCommands`. -/
def isShellPath (path : String) : Bool :=
  shellCommands.any (fun sh => strHasSuffix path sh || path == sh)

/-- The script-suffix disjunction of `validatePaths`. -/
def hasScriptSuffix (arg : String) : Bool :=
  strHasSuffix arg ".sh" || strHasSuffix arg ".bash" ||
  strHasSuffix arg ".ps1" || strHasSuffix arg ".bat" || strHasSuffix arg ".cmd"

/-- The argument loop of the shell policy: a `"-c"` argument aborts with an
error; otherwise the accumulator records whether some non-flag argument has
a script suffix. -/
def shellLoop : List String → Bool → Except VError Bool
  | [], hasScriptArg => .ok hasScriptArg
  | arg :: rest, hasScriptArg =>
    if arg = "-c" then .error .shellDashC
    else shellLoop rest (hasScriptArg || (!strHasPrefix arg "-" && hasScriptSuffix arg))

/-- `checkPathWithinRoot`: clean an absolute path, or join a relative path
onto the root and clean; then apply the escape test. -/
def checkPathWithinRoot (root path : String) : Bool :=
  let absPath := if isAbs path then clean path else clean (joinPath root path)
  !escapesRoot root absPath

/-- Resolution of an argument path: absolute arguments are cleaned, others
are joined onto the working directory and cleaned. -/
def resolveArg (wd arg : String) : String :=
  if isAbs arg then clean arg else clean (joinPath wd arg)

/-- The per-argument loop at the end of `validatePaths`: arguments that
contain a separator and do not begin with `'-'` are resolved (absolute, or
relative to the working directory) and containment-checked; the first
escaping argument aborts with its index and resolved path. -/
def argsLoop (root wd : String) : Nat → List String → Option VError
  | _, [] => none
  | i, arg :: rest =>
    if (strContainsChar arg '/' || strContainsChar arg '\\') && !strHasPrefix arg "-" then
      if escapesRoot root (resolveArg wd arg) then
        some (.argEscapes i arg root (resolveArg wd arg))
      else argsLoop root wd (i + 1) rest
    else argsLoop root wd (i + 1) rest

/-- The containment trigger for one argument: it looks like a path (has a
separator, no leading dash) and its resolution escapes the root. -/
def argTrigger (root wd arg : String) : Bool :=
  ((strContainsChar arg '/' || strContainsChar arg '\\') && !strHasPrefix arg "-") &&
    escapesRoot root (resolveArg wd arg)

/-- The working directory `validatePaths` leaves in the payload: the
requested one, defaulted to the root when absent. -/
def effectiveWd (root : String) (p : ExecPayload) : String :=
  if p.workingDir = "" then root else p.workingDir

/-- The shell-policy stage at the top of `validatePaths`. -/
def shellGate (p : ExecPayload) : Except VError Unit :=
  if isShellPath p.path then
    match shellLoop p.args false with
    | .error e => .error e
    | .ok hasScriptArg => if !hasScriptArg then .error .shellNoScript else .ok ()
  else .ok ()

/-- The working-directory stage: a provided directory must pass
`checkPathWithinRoot`; an absent one is defaulted to the root. -/
def wdGate (root : String) (p : ExecPayload) : Except VError String :=
  if p.workingDir ≠ "" then
    if checkPathWithinRoot root p.workingDir then .ok p.workingDir
    else .error (.wdOutside p.workingDir root)
  else .ok root

/-- The relative-executable containment stage: only a relative path that
contains a separator is resolved against the working directory and
containment-checked. -/
def cmdGate (root wd : String) (p : ExecPayload) : Except VError Unit :=
  if !isAbs p.path && (strContainsChar p.path '/' || strContainsChar p.path '\\') then
    if escapesRoot root (clean (joinPath wd p.path)) then .error (.cmdEscapes p.path root)
    else .ok ()
  else .ok ()

/-- `validatePaths` (`ipc_server.go:402`): shell policy, working-directory
containment (with defaulting to the root), relative executable containment,
then argument containment.  Returns the payload with its working directory
possibly defaulted, mirroring the in-place mutation of the Go code. -/
def validatePaths (root : String) (p : ExecPayload) : Except VError ExecPayload :=
  if root = "" then .ok p
  else
    match shellGate p with
    | .error e => .error e
    | .ok () =>
      match wdGate root p with
      | .error e => .error e
      | .ok wd =>
        match cmdGate root wd p with
        | .error e => .error e
        | .ok () =>
          match argsLoop root wd 0 p.args with
          | some e => .error e
          | none => .ok { p with workingDir := wd }

/-- The `interpreters` list of `isInterpreter`. -/
def interpreters : List String :=
  ["python", "python2", "python3", "node", "nodejs", "ruby", "irb", "php",
   "perl", "lua", "java", "javac", "go", "gofmt", "bash", "sh", "zsh",
   "fish", "ksh", "cmd.exe", "powershell.exe", "pwsh.exe"]

/-- `isInterpreter` (`ipc_server.go:482`): the base name equals or has one
of the deny-list entries as a prefix. -/
def isInterpreter (cmdPath : String) : Bool :=
  let baseName := basePath cmdPath
  interpreters.any (fun interp => baseName == interp || strHasPrefix baseName interp)

/-- The server state relevant to the exec gate: `chrootActive` stands for
`chrootExecutor ≠ nil`. -/
structure ServerCfg where
  chunkSize : Nat := 32 * 1024
  bufLimit : Int := 4 * 1024 * 1024
  rootDir : String := ""
  chrootActive : Bool := false
  allowInsecure : Bool := false
deriving Repr

/-- Outcome of the pre-spawn portion of `runExec` (`ipc_server.go:164`). -/
inductive GateResult where
  | violation (e : VError)
  | interpreterBlocked (path : String)
  | proceed (p : ExecPayload)
deriving Repr, DecidableEq

/-- The validation gate at the top of `runExec`: with a root directory and
no chroot executor, run `validatePaths`, then block interpreters unless
`allowInsecure`; otherwise proceed unchanged. -/
def execGate (s : ServerCfg) (p : ExecPayload) : GateResult :=
  if s.rootDir ≠ "" && !s.chrootActive then
    match validatePaths s.rootDir p with
    | .error e => .violation e
    | .ok p' =>
      if isInterpreter p.path && !s.allowInsecure then .interpreterBlocked p.path
      else .proceed p'
  else .proceed p

/-! ## Chroot command preparation (`chroot.go`) -/

/-- The working-directory rewrite of `ChrootExecutor.PrepareCommand`
(`chroot.go:52`): an empty working directory or a failing `filepath.Rel`
yields `"/"`; otherwise `"/" ++ Rel(rootDir, workDir)`. -/
def prepareDir (rootDir workDir : String) : String :=
  if workDir ≠ "" then
    match relPath rootDir workDir with
    | none => "/"
    | some r => "/" ++ r
  else "/"

-- Sanity checks.
example : validatePaths "/tmp/r"
    { path := "/bin/cat", args := ["../etc/passwd"], workingDir := "/tmp/r" } =
    .error (.argEscapes 0 "../etc/passwd" "/tmp/r" "/tmp/etc/passwd") := by decide
example : validatePaths "/tmp/r"
    { path := "/bin/cat", args := ["safe.txt"], workingDir := "/tmp/r" } =
    .ok { path := "/bin/cat", args := ["safe.txt"], workingDir := "/tmp/r" } := by decide
example : validatePaths "/tmp/r" { path := "bash", args := ["-c", "ls"] } =
    .error .shellDashC := by decide
example : validatePaths "/tmp/r" { path := "ssh", args := ["host"] } =
    .error .shellNoScript := by decide
example : isInterpreter "/usr/bin/python3" = true := by decide
example : isInterpreter "nodemon" = true := by decide
example : isInterpreter "/bin/cat" = false := by decide
example : execGate { rootDir := "/tmp/r" } { path := "/usr/bin/python3", args := ["script.py"] } =
    .interpreterBlocked "/usr/bin/python3" := by decide
example : prepareDir "/tmp/r" "/etc" = "/../../etc" := by decide
example : prepareDir "/tmp/r" "" = "/" := by decide
example : prepareDir "/tmp/r" "/tmp/r/sub" = "/sub" := by decide

/-! ## Environment merge (`env.go`)

Go maps are modelled as association lists whose keys are pairwise distinct;
iteration order is irrelevant to the properties proved below.  `mergeEnv`
inserts every `base` entry and then every `overrides` entry into a fresh
map, so an `overrides` binding wins; the model enumerates the merged map
with the surviving `base` entries first. -/

def hasKey (m : List (String × String)) (k : String) : Bool :=
  m.any (fun kv => kv.1 = k)

def lookupEnv (m : List (String × String)) (k : String) : Option String :=
  (m.find? (fun kv => kv.1 = k)).map (fun kv => kv.2)

/-- `mergeEnv` (`env.go:3`). -/
def mergeEnv (base overrides : List (String × String)) : List (String × String) :=
  base.filter (fun kv => !hasKey overrides kv.1) ++ overrides

/-- `envMapToList` (`env.go:14`): one `"k=v"` entry per binding. -/
def envMapToList (env : List (String × String)) : List String :=
  env.map (fun kv => kv.1 ++ "=" ++ kv.2)

/-- `flattenEnv` (`env.go:25`). -/
def flattenEnv (base overrides : List (String × String)) : List String :=
  envMapToList (mergeEnv base overrides)

/-- The child environment built by `runExec` (`ipc_server.go:196`):
`command.Env = flattenEnv(nil, payload.Env)` — the base map is empty. -/
def serverExecEnv (p : ExecPayload) : List String :=
  flattenEnv [] p.env

/-! ## Bounded output collector (`ipc_client.go:440`) and stream pump
(`ipc_server.go:268`)

Bytes are `Nat`s (< 256 where it matters); the collector state is its
buffered contents. -/

abbrev Bytes := List Nat

/-- `limitedBuffer.Write`: a non-positive limit buffers nothing; writes are
truncated to the remaining capacity and the overflow is discarded. -/
def limitedWrite (limit : Int) (buf p : Bytes) : Bytes :=
  if limit ≤ 0 then buf
  else if limit - buf.length ≤ 0 then buf
  else if (p.length : Int) > limit - buf.length then
    buf ++ p.take (limit - buf.length).toNat
  else buf ++ p

/-! ## Per-connection frame machine (`ipc_server.go:115`)

Inbound traffic is a list of read results: `.malformed` stands for a
`readFrame` decode error, and an absent list tail for EOF / an aborted
read.  An `Option` payload records whether the frame body unmarshals.
Outbound frames carry structured error descriptions in place of the Go
message strings; each `ErrMsg` constructor corresponds to one message the
server can emit. -/

structure PutPayload where
  path : String
  mode : Nat := 0
deriving Repr, DecidableEq

structure GetPayload where
  path : String
deriving Repr, DecidableEq

inductive InFrame where
  | ping
  | execReq (p : Option ExecPayload)
  | filePutReq (p : Option PutPayload)
  | fileGetReq (p : Option GetPayload)
  | stdinChunk (d : Option Bytes)
  | stdinClose
  | filePutChunk (d : Option Bytes)
  | filePutClose
  | other
deriving Repr, DecidableEq

inductive InItem where
  | ok (f : InFrame)
  | malformed
deriving Repr, DecidableEq

inductive ErrMsg where
  | securityViolation (e : VError)
  | insecureInterpreter (path : String)
  | unmarshal
  | unsupportedFrame
  | pipeErr (m : String)
  | startErr (m : String)
  | waitErr (m : String)
  | pathRequired
  | openErr (path : String)
  | putReadErr
  | unexpectedPutFrame
deriving Repr, DecidableEq

inductive OutFrame where
  | pong
  | stdout (d : Bytes)
  | stderr (d : Bytes)
  | fileGetChunk (d : Bytes)
  | result (exitCode : Int) (stdout stderr : Bytes)
  | filePutResult (bytes : Nat)
  | fileGetResult (bytes : Nat) (err : String)
  | error (m : ErrMsg)
deriving Repr, DecidableEq

/-- The terminal frame types of the protocol. -/
def OutFrame.isTerminal : OutFrame → Bool
  | .result _ _ _ => true
  | .filePutResult _ => true
  | .fileGetResult _ _ => true
  | .error _ => true
  | _ => false

def terminalCount (out : List OutFrame) : Nat :=
  (out.filter OutFrame.isTerminal).length

/-- The environment of one exec: pipe/start failures, the `Wait` outcome
(`waitFailure` is a non-`ExitError` failure), and the chunked reads the two
output pipes deliver. -/
structure ExecEnv where
  stdinPipeErr : Option String := none
  stdoutPipeErr : Option String := none
  stderrPipeErr : Option String := none
  startErr : Option String := none
  waitFailure : Option String := none
  exitCode : Int := 0
  stdoutReads : List Bytes := []
  stderrReads : List Bytes := []

/-- `streamPipe` (`ipc_server.go:268`) over the list of reads a pipe
delivers before EOF: each nonempty read is appended to the bounded
collector and, when streaming, forwarded in full as one frame.  Returns the
final collector contents and the emitted frames. -/
def streamPipeFold (limit : Int) (stream : Bool) (typ : Bytes → OutFrame)
    (init : Bytes × List OutFrame) (reads : List Bytes) : Bytes × List OutFrame :=
  reads.foldl
    (fun acc chunk =>
      if chunk.length > 0 then
        (limitedWrite limit acc.1 chunk, acc.2 ++ if stream then [typ chunk] else [])
      else acc)
    init

def streamPipeModel (limit : Int) (stream : Bool) (typ : Bytes → OutFrame)
    (reads : List Bytes) : Bytes × List OutFrame :=
  streamPipeFold limit stream typ ([], []) reads

/-- `consumeStdin` (`ipc_server.go:286`): answers `ping` with `pong`,
swallows stdin chunks, and stops at `stdin_close`, a read failure, EOF, or
any other frame type.  Only its outbound frames are modelled. -/
def consumeStdinModel : List InItem → List OutFrame
  | [] => []
  | .malformed :: _ => []
  | .ok .ping :: rest => .pong :: consumeStdinModel rest
  | .ok (.stdinChunk _) :: rest => consumeStdinModel rest
  | .ok .stdinClose :: _ => []
  | .ok _ :: _ => []

/-- `runExec` (`ipc_server.go:164`) at the frame level: the validation gate,
the three pipe creations and the start may fail with a single error frame;
otherwise the pumps run, stdin is consumed from the remaining inbound items,
and a single terminal frame follows (`error` for a non-exit failure of
`Wait`, `result` otherwise).  Chroot preparation is modelled for non-Windows
hosts, where `PrepareCommand` cannot fail.  The true interleaving of the
pump outputs is concurrent; the model lists stdout frames, then stderr
frames, then the pongs of the stdin consumer, which is one admissible
interleaving and irrelevant to the frame counts proved below. -/
def runExecModel (s : ServerCfg) (env : ExecEnv) (p : ExecPayload)
    (rest : List InItem) : List OutFrame :=
  match execGate s p with
  | .violation e => [.error (.securityViolation e)]
  | .interpreterBlocked path => [.error (.insecureInterpreter path)]
  | .proceed p' =>
    match env.stdinPipeErr with
    | some m => [.error (.pipeErr m)]
    | none =>
      match env.stdoutPipeErr with
      | some m => [.error (.pipeErr m)]
      | none =>
        match env.stderrPipeErr with
        | some m => [.error (.pipeErr m)]
        | none =>
          match env.startErr with
          | some m => [.error (.startErr m)]
          | none =>
            (streamPipeModel s.bufLimit p'.stream OutFrame.stdout env.stdoutReads).2 ++
              (streamPipeModel s.bufLimit p'.stream OutFrame.stderr env.stderrReads).2 ++
              consumeStdinModel rest ++
              match env.waitFailure with
              | some m => [.error (.waitErr m)]
              | none =>
                [.result env.exitCode
                  (streamPipeModel s.bufLimit p'.stream OutFrame.stdout env.stdoutReads).1
                  (streamPipeModel s.bufLimit p'.stream OutFrame.stderr env.stderrReads).1]

/-- The receive loop of `handleFilePut` (`ipc_server.go:336`): chunks are
appended to the target file (the in-memory file model makes writes
succeed), `file_put_close` answers with the byte count, and a read failure
(including EOF), an undecodable chunk, or an unexpected frame each produce
one error frame.  Returns the written contents and the emitted frames. -/
def filePutLoop : List InItem → Bytes → Bytes × List OutFrame
  | [], written => (written, [.error .putReadErr])
  | .malformed :: _, written => (written, [.error .putReadErr])
  | .ok (.filePutChunk none) :: _, written => (written, [.error .unmarshal])
  | .ok (.filePutChunk (some d)) :: rest, written =>
    if d.length > 0 then filePutLoop rest (written ++ d) else filePutLoop rest written
  | .ok .filePutClose :: _, written => (written, [.filePutResult written.length])
  | .ok _ :: _, written => (written, [.error .unexpectedPutFrame])

/-- `handleFilePut` (`ipc_server.go:313`): an empty path is refused;
otherwise the target is created/truncated and the receive loop runs. -/
def handleFilePutModel (p : PutPayload) (rest : List InItem) : Bytes × List OutFrame :=
  if p.path = "" then ([], [.error .pathRequired]) else filePutLoop rest []

/-- The chunks `handleFileGet` reads from a file of the given contents:
successive `chunkSize`-byte reads until EOF. -/
def fileGetChunks (chunkSize : Nat) (data : Bytes) : List Bytes :=
  if chunkSize = 0 ∨ data = [] then []
  else data.take chunkSize :: fileGetChunks chunkSize (data.drop chunkSize)
termination_by data.length
decreasing_by
  simp only [not_or] at *
  rename_i h
  have hlen : 0 < data.length := List.length_pos.mpr h.2
  have hcs : 0 < chunkSize := Nat.pos_of_ne_zero h.1
  simp only [List.length_drop]
  omega

/-- `handleFileGet` (`ipc_server.go:367`): an empty path is refused, a
missing file produces the open error, and otherwise the contents stream in
`chunkSize` chunks followed by a `file_get_result` carrying the byte count.
The in-memory file model reads without I/O errors. -/
def handleFileGetModel (s : ServerCfg) (fs : String → Option Bytes)
    (g : GetPayload) : List OutFrame :=
  if g.path = "" then [.error .pathRequired]
  else
    match fs g.path with
    | none => [.error (.openErr g.path)]
    | some data =>
      (fileGetChunks s.chunkSize data).map OutFrame.fileGetChunk ++
        [.fileGetResult data.length ""]

/-- The per-connection environment: the exec oracle and the file system
visible to `file_get`. -/
structure ConnEnv where
  exec : ExecEnv := {}
  fs : String → Option Bytes := fun _ => none

/-- `handleConn` (`ipc_server.go:115`): answer pings in place, dispatch the
first request frame, send one error frame for an undecodable payload or an
unsupported type, and close silently on a wire-level decode failure or
EOF. -/
def handleConnModel (s : ServerCfg) (cenv : ConnEnv) : List InItem → List OutFrame
  | [] => []
  | .malformed :: _ => []
  | .ok .ping :: rest => .pong :: handleConnModel s cenv rest
  | .ok (.execReq none) :: _ => [.error .unmarshal]
  | .ok (.execReq (some p)) :: rest => runExecModel s cenv.exec p rest
  | .ok (.filePutReq none) :: _ => [.error .unmarshal]
  | .ok (.filePutReq (some p)) :: rest => (handleFilePutModel p rest).2
  | .ok (.fileGetReq none) :: _ => [.error .unmarshal]
  | .ok (.fileGetReq (some g)) :: _ => handleFileGetModel s cenv.fs g
  | .ok _ :: _ => [.error .unsupportedFrame]

/-- A connection dispatches a request exactly when the first non-`ping`
read is a well-formed frame. -/
def reachesDispatch : List InItem → Bool
  | [] => false
  | .malformed :: _ => false
  | .ok .ping :: rest => reachesDispatch rest
  | .ok _ :: _ => true

/-- The payload bytes carried by a streaming frame. -/
def frameData : OutFrame → Bytes
  | .stdout d => d
  | .stderr d => d
  | .fileGetChunk d => d
  | _ => []

/-! ## Frame codec (`protocol.go`)

`frameWriter.send` marshals a payload struct with `encoding/json`, wraps it
in `rawFrame{type, payload}`, and appends one JSON value to the stream;
`readFrame` decodes the next JSON value into a `rawFrame`, leaving the
payload raw.  The JSON value layer is modelled by an explicit `Json` tree;
the byte rendering of a `Json` value is the identity transport here (§4.1
of the spec admits any self-delimited record encoding).  Go marshals
`[]byte` as standard base64, modelled exactly; `time.Time` fields are
carried as their RFC3339 strings, modelled as opaque strings. -/

inductive Json where
  | null
  | bool (b : Bool)
  | num (n : Int)
  | str (s : String)
  | arr (elems : List Json)
  | obj (fields : List (String × Json))

def getField (fields : List (String × Json)) (k : String) : Option Json :=
  (fields.find? (fun f => f.1 = k)).map (fun f => f.2)

/-- The standard base64 alphabet. -/
def b64Alphabet : List Char :=
  "ABCDEFGHIJKLMNOPQRSTUVWXYZabcdefghijklmnopqrstuvwxyz0123456789+/".toList

def b64Char (n : Nat) : Char := b64Alphabet.getD n 'A'

/-- Standard base64 with padding, as Go `encoding/json` applies to
`[]byte` values: three bytes become four alphabet characters, with `'='`
padding for a final group of one or two bytes. -/
def base64Encode : Bytes → List Char
  | b0 :: b1 :: b2 :: rest =>
    b64Char (b0 / 4) :: b64Char (b0 % 4 * 16 + b1 / 16) ::
      b64Char (b1 % 16 * 4 + b2 / 64) :: b64Char (b2 % 64) :: base64Encode rest
  | [b0, b1] => [b64Char (b0 / 4), b64Char (b0 % 4 * 16 + b1 / 16), b64Char (b1 % 16 * 4), '=']
  | [b0] => [b64Char (b0 / 4), b64Char (b0 % 4 * 16), '=', '=']
  | [] => []

def b64Index (c : Char) : Option Nat :=
  b64Alphabet.findIdx? (fun x => x = c)

/-- Base64 decoding as Go's (default, lenient) decoder performs it: four
characters yield three bytes, a padded group must end the input, and extra
trailing bits are discarded. -/
def base64Decode : List Char → Option Bytes
  | [] => some []
  | c0 :: c1 :: c2 :: c3 :: rest =>
    match b64Index c0, b64Index c1 with
    | some s0, some s1 =>
      if c2 = '=' then
        if c3 = '=' ∧ rest = [] then some [s0 * 4 + s1 / 16] else none
      else
        match b64Index c2 with
        | some s2 =>
          if c3 = '=' then
            if rest = [] then some [s0 * 4 + s1 / 16, s1 % 16 * 16 + s2 / 4] else none
          else
            match b64Index c3, base64Decode rest with
            | some s3, some tail =>
              some ((s0 * 4 + s1 / 16) :: (s1 % 16 * 16 + s2 / 4) ::
                (s2 % 4 * 64 + s3) :: tail)
            | _, _ => none
        | none => none
    | _, _ => none
  | _ => none

def bytesJson (d : Bytes) : Json := .str (String.mk (base64Encode d))

/-- `execResultPayload` (`protocol.go`), with `time.Time` fields as their
rendered strings. -/
structure ExecResultPayload where
  exitCode : Int
  stdout : Bytes := []
  stderr : Bytes := []
  durationMilli : Int := 0
  startedAt : String := ""
  finishedAt : String := ""
  errorMessage : String := ""
deriving Repr, DecidableEq

/-- One constructor per payload struct of `protocol.go`. -/
inductive Payload where
  | execReq (p : ExecPayload)
  | execResult (r : ExecResultPayload)
  | chunk (d : Bytes)
  | stdin (d : Bytes)
  | filePutReq (p : PutPayload)
  | fileGetReq (p : GetPayload)
  | transferResult (bytes : Int) (err : String)
  | errorMsg (m : String)
  | pong (ts : String)
deriving Repr, DecidableEq

inductive PayloadKind where
  | execReq | execResult | chunk | stdin | filePutReq | fileGetReq
  | transferResult | errorMsg | pong
deriving Repr, DecidableEq

def Payload.kind : Payload → PayloadKind
  | .execReq _ => .execReq
  | .execResult _ => .execResult
  | .chunk _ => .chunk
  | .stdin _ => .stdin
  | .filePutReq _ => .filePutReq
  | .fileGetReq _ => .fileGetReq
  | .transferResult _ _ => .transferResult
  | .errorMsg _ => .errorMsg
  | .pong _ => .pong

/-- Serializable payloads: byte fields hold byte values. -/
def Payload.wf : Payload → Prop
  | .chunk d => ∀ b ∈ d, b < 256
  | .stdin d => ∀ b ∈ d, b < 256
  | .execResult r => (∀ b ∈ r.stdout, b < 256) ∧ (∀ b ∈ r.stderr, b < 256)
  | _ => True

instance (pl : Payload) : Decidable pl.wf := by
  cases pl <;> simp only [Payload.wf] <;> infer_instance

-- `omitempty` marshalling helpers: a zero-valued field is omitted.
def omitStr (k s : String) : List (String × Json) :=
  if s = "" then [] else [(k, .str s)]

def omitInt (k : String) (n : Int) : List (String × Json) :=
  if n = 0 then [] else [(k, .num n)]

def omitNat (k : String) (n : Nat) : List (String × Json) :=
  if n = 0 then [] else [(k, .num n)]

def omitBytes (k : String) (d : Bytes) : List (String × Json) :=
  if d = [] then [] else [(k, bytesJson d)]

def envJson (e : List (String × String)) : Json :=
  .obj (e.map (fun kv => (kv.1, .str kv.2)))

def omitEnv (k : String) (e : List (String × String)) : List (String × Json) :=
  if e = [] then [] else [(k, envJson e)]

-- Field decoders; a missing field or JSON `null` keeps the zero value, as
-- `encoding/json` leaves the destination field untouched.
def jStr : Option Json → Option String
  | none => some ""
  | some .null => some ""
  | some (.str s) => some s
  | _ => none

def jBytes : Option Json → Option Bytes
  | none => some []
  | some .null => some []
  | some (.str s) => base64Decode s.toList
  | _ => none

def jInt : Option Json → Option Int
  | none => some 0
  | some .null => some 0
  | some (.num n) => some n
  | _ => none

def jBool : Option Json → Option Bool
  | none => some false
  | some .null => some false
  | some (.bool b) => some b
  | _ => none

/-- Sequential decoding of a JSON list, as `encoding/json` decodes array
and object elements in order. -/
def mapMOpt {α β : Type} (f : α → Option β) : List α → Option (List β)
  | [] => some []
  | a :: rest => do
    let b ← f a
    let bs ← mapMOpt f rest
    pure (b :: bs)

def jStrList : Option Json → Option (List String)
  | none => some []
  | some .null => some []
  | some (.arr xs) => mapMOpt (fun j => match j with | .str s => some s | _ => none) xs
  | _ => none

def jEnv : Option Json → Option (List (String × String))
  | none => some []
  | some .null => some []
  | some (.obj fs) =>
    mapMOpt (fun kv => match kv.2 with | .str s => some (kv.1, s) | _ => none) fs
  | _ => none

/-- `json.Marshal` of each payload struct, following the struct tags of
`protocol.go` in declaration order. -/
def marshalPayload : Payload → Json
  | .execReq p =>
    .obj ([("path", .str p.path), ("args", .arr (p.args.map Json.str))] ++
      omitEnv "env" p.env ++ omitStr "working_dir" p.workingDir ++
      omitInt "timeout_ms" p.timeoutMilli ++ [("stream", .bool p.stream)] ++
      omitStr "user" p.user)
  | .execResult r =>
    .obj ([("exit_code", .num r.exitCode)] ++ omitBytes "stdout" r.stdout ++
      omitBytes "stderr" r.stderr ++ [("duration_ms", .num r.durationMilli),
      ("started_at", .str r.startedAt), ("finished_at", .str r.finishedAt)] ++
      omitStr "error" r.errorMessage)
  | .chunk d => .obj [("data", bytesJson d)]
  | .stdin d => .obj [("data", bytesJson d)]
  | .filePutReq p => .obj ([("path", .str p.path)] ++ omitNat "mode" p.mode)
  | .fileGetReq p => .obj [("path", .str p.path)]
  | .transferResult bytes err => .obj ([("bytes", .num bytes)] ++ omitStr "error" err)
  | .errorMsg m => .obj [("message", .str m)]
  | .pong ts => .obj [("timestamp", .str ts)]

/-- `json.Unmarshal` of a raw payload into the struct selected by the
handler. -/
def unmarshalPayload : PayloadKind → Json → Option Payload
  | .execReq, .obj fs => do
    let path ← jStr (getField fs "path")
    let args ← jStrList (getField fs "args")
    let env ← jEnv (getField fs "env")
    let wd ← jStr (getField fs "working_dir")
    let tm ← jInt (getField fs "timeout_ms")
    let stream ← jBool (getField fs "stream")
    let user ← jStr (getField fs "user")
    pure (Payload.execReq ⟨path, args, env, wd, tm, stream, user⟩)
  | .execResult, .obj fs => do
    let code ← jInt (getField fs "exit_code")
    let stdout ← jBytes (getField fs "stdout")
    let stderr ← jBytes (getField fs "stderr")
    let dur ← jInt (getField fs "duration_ms")
    let st ← jStr (getField fs "started_at")
    let fin ← jStr (getField fs "finished_at")
    let em ← jStr (getField fs "error")
    pure (Payload.execResult ⟨code, stdout, stderr, dur, st, fin, em⟩)
  | .chunk, .obj fs => do
    let d ← jBytes (getField fs "data")
    pure (.chunk d)
  | .stdin, .obj fs => do
    let d ← jBytes (getField fs "data")
    pure (.stdin d)
  | .filePutReq, .obj fs => do
    let path ← jStr (getField fs "path")
    let mode ← jInt (getField fs "mode")
    pure (.filePutReq { path := path, mode := mode.toNat })
  | .fileGetReq, .obj fs => do
    let path ← jStr (getField fs "path")
    pure (.fileGetReq { path := path })
  | .transferResult, .obj fs => do
    let bytes ← jInt (getField fs "bytes")
    let err ← jStr (getField fs "error")
    pure (.transferResult bytes err)
  | .errorMsg, .obj fs => do
    let m ← jStr (getField fs "message")
    pure (.errorMsg m)
  | .pong, .obj fs => do
    let ts ← jStr (getField fs "timestamp")
    pure (.pong ts)
  | _, _ => none

/-- `rawFrame`: a type discriminant string and an optional raw payload. -/
structure WireFrame where
  typ : String
  payload : Option Json

/-- `frameWriter.send` (`protocol.go:97`): the JSON value appended to the
stream for one frame — the `payload` field is omitted when the payload is
`nil`. -/
def sendFrameJson (typ : String) (pl : Option Payload) : Json :=
  .obj (("type", .str typ) ::
    match pl with
    | none => []
    | some payload => [("payload", marshalPayload payload)])

/-- `readFrame` (`protocol.go:112`): decode one JSON value into a
`rawFrame`, leaving the payload raw. -/
def readFrameJson : Json → Option WireFrame
  | .obj fs => do
    let t ← jStr (getField fs "type")
    pure ⟨t, getField fs "payload"⟩
  | _ => none

/-- A sequence of sends on one writer, in order (the writer's mutex
serializes concurrent producers). -/
def sendAll (frames : List (String × Option Payload)) : List Json :=
  frames.map (fun f => sendFrameJson f.1 f.2)

/-! ## Notions used to state the claims -/

/-- The specification's notion of a path lying lexically outside the root:
after cleaning, the root's components are not a prefix of the path's. -/
def outsideRoot (root p : String) : Prop :=
  ¬ (pathParts (clean root) <+: pathParts (clean p))

instance (root p : String) : Decidable (outsideRoot root p) := by
  unfold outsideRoot; infer_instance

/-- The shell base-name set as the claims state it. -/
def specShellNames : List String :=
  ["sh", "bash", "zsh", "ksh", "fish", "cmd", "cmd.exe", "powershell",
   "powershell.exe", "pwsh", "pwsh.exe"]

/-- The interpreter deny-list as the claims state it: `python*` is a prefix
pattern, every other entry a literal base name. -/
def specInterpreterMatch (base : String) : Bool :=
  strHasPrefix base "python" ||
    (["node", "nodejs", "ruby", "irb", "php", "perl", "lua", "java", "javac",
      "go", "gofmt", "bash", "sh", "zsh", "fish", "ksh",
      "cmd.exe", "powershell.exe", "pwsh.exe"].contains base)

/-- Components as `Clean` leaves them: nonempty, not `"."`, separator-free. -/
def GoodComp (c : String) : Prop :=
  c ≠ "" ∧ c ≠ "." ∧ pathSep ∉ c.toList

/-- Component lists of cleaned absolute paths: good components, no `".."`. -/
def AbsValid (cs : List String) : Prop :=
  ∀ c ∈ cs, GoodComp c ∧ c ≠ ".."

/-! ## Lemmas on path splitting and rendering -/

theorem toList_append (a b : String) : (a ++ b).toList = a.toList ++ b.toList :=
  String.data_append a b

theorem mk_toList (s : String) : String.mk s.toList = s := rfl

theorem splitSep_cons (c : Char) (cs : List Char) :
    splitSep (c :: cs) =
      if c = pathSep then [] :: splitSep cs
      else
        match splitSep cs with
        | [] => [[c]]
        | x :: xs => (c :: x) :: xs := rfl

theorem mem_splitSep_no_sep (l : List Char) : ∀ seg ∈ splitSep l, pathSep ∉ seg := by
  induction l with
  | nil =>
    intro seg h
    simp only [splitSep, List.mem_singleton] at h
    simp [h]
  | cons c cs ih =>
    intro seg h
    rw [splitSep_cons] at h
    split at h
    · rcases List.mem_cons.mp h with h | h
      · simp [h]
      · exact ih seg h
    · rename_i hc
      rcases hx : splitSep cs with _ | ⟨x, xs⟩
      · rw [hx] at h
        simp only [List.mem_singleton] at h
        subst h
        intro hmem
        rcases List.mem_cons.mp hmem with h1 | h1
        · exact hc h1.symm
        · exact absurd h1 (List.not_mem_nil _)
      · rw [hx] at h
        rcases List.mem_cons.mp h with h | h
        · subst h
          intro hmem
          rcases List.mem_cons.mp hmem with h1 | h1
          · exact hc h1.symm
          · exact ih x (by rw [hx]; exact List.mem_cons_self x xs) h1
        · exact ih seg (by rw [hx]; exact List.mem_cons_of_mem x h)

theorem splitSep_no_sep (l : List Char) (h : pathSep ∉ l) : splitSep l = [l] := by
  induction l with
  | nil => rfl
  | cons c cs ih =>
    have hc : ¬ c = pathSep := fun e => h (by simp [e])
    rw [splitSep_cons, if_neg hc, ih (fun hm => h (List.mem_cons_of_mem _ hm))]

theorem splitSep_append (xs ys : List Char) (h : pathSep ∉ xs) :
    splitSep (xs ++ pathSep :: ys) = xs :: splitSep ys := by
  induction xs with
  | nil => simp [splitSep_cons]
  | cons c cs ih =>
    have hc : ¬ c = pathSep := fun e => h (by simp [e])
    simp only [List.cons_append]
    rw [splitSep_cons, if_neg hc, ih (fun hm => h (List.mem_cons_of_mem _ hm))]

theorem pathParts_no_sep (p : String) :
    ∀ c ∈ pathParts p, c ≠ "" ∧ pathSep ∉ c.toList := by
  intro c hc
  unfold pathParts at hc
  rw [List.mem_filter] at hc
  obtain ⟨hmem, hne⟩ := hc
  rw [List.mem_map] at hmem
  obtain ⟨seg, hseg, hc⟩ := hmem
  refine ⟨by simpa using hne, ?_⟩
  subst hc
  exact mem_splitSep_no_sep _ seg hseg

theorem joinParts_cons (c : String) (cs : List String) (h : cs ≠ []) :
    joinParts (c :: cs) = c ++ "/" ++ joinParts cs := by
  cases cs with
  | nil => exact absurd rfl h
  | cons d ds => rfl

theorem splitSep_joinParts (cs : List String) (hne : cs ≠ [])
    (h : ∀ c ∈ cs, c ≠ "" ∧ pathSep ∉ c.toList) :
    splitSep (joinParts cs).toList = cs.map String.toList := by
  induction cs with
  | nil => exact absurd rfl hne
  | cons c cs ih =>
    cases cs with
    | nil =>
      show splitSep (joinParts [c]).toList = [c.toList]
      exact splitSep_no_sep _ (h c (by simp)).2
    | cons d ds =>
      rw [joinParts_cons c (d :: ds) (by simp), toList_append, toList_append]
      have hsl : ("/" : String).toList = [pathSep] := rfl
      rw [hsl, List.append_assoc]
      show splitSep (c.toList ++ pathSep :: (joinParts (d :: ds)).toList) = _
      rw [splitSep_append _ _ (h c (by simp)).2,
        ih (by simp) (fun x hx => h x (List.mem_cons_of_mem _ hx))]
      rfl

theorem filter_ne_empty_eq_self (cs : List String) (h : ∀ c ∈ cs, c ≠ "") :
    cs.filter (fun s => s ≠ "") = cs := by
  induction cs with
  | nil => rfl
  | cons c cs ih =>
    rw [List.filter_cons]
    have hc : (fun s : String => decide (s ≠ "")) c = true := by
      simpa using h c (by simp)
    simp only [hc, if_pos]
    rw [ih (fun x hx => h x (List.mem_cons_of_mem _ hx))]

theorem pathParts_render_abs (cs : List String)
    (h : ∀ c ∈ cs, c ≠ "" ∧ pathSep ∉ c.toList) :
    pathParts (renderPath true cs) = cs := by
  cases cs with
  | nil => decide
  | cons c cs =>
    unfold pathParts renderPath
    rw [if_pos rfl]
    have h1 : ("/" ++ joinParts (c :: cs)).toList =
        pathSep :: (joinParts (c :: cs)).toList := by
      rw [toList_append]; rfl
    rw [h1, splitSep_cons, if_pos rfl,
      splitSep_joinParts (c :: cs) (by simp) h]
    show (("" : String) :: (((c :: cs).map String.toList).map String.mk)).filter _ = _
    have h2 : ((c :: cs).map String.toList).map String.mk = c :: cs := by
      rw [List.map_map]
      have : (String.mk ∘ String.toList) = id := funext fun s => mk_toList s
      rw [this, List.map_id]
    rw [List.filter_cons]
    have h3 : (fun s : String => decide (s ≠ "")) "" = false := by decide
    simp only [h3, Bool.false_eq_true, if_neg]
    rw [h2]
    exact filter_ne_empty_eq_self _ (fun x hx => (h x hx).1)

theorem pathParts_render_rel (cs : List String) (hne : cs ≠ [])
    (h : ∀ c ∈ cs, c ≠ "" ∧ pathSep ∉ c.toList) :
    pathParts (renderPath false cs) = cs := by
  unfold pathParts renderPath
  rw [if_neg (by simp), if_neg hne, splitSep_joinParts cs hne h]
  have h2 : (cs.map String.toList).map String.mk = cs := by
    rw [List.map_map]
    have : (String.mk ∘ String.toList) = id := funext fun s => mk_toList s
    rw [this, List.map_id]
  rw [h2]
  exact filter_ne_empty_eq_self _ (fun x hx => (h x hx).1)

theorem isAbs_render_abs (cs : List String) : isAbs (renderPath true cs) = true := by
  unfold renderPath
  rw [if_pos rfl]
  have h1 : ("/" ++ joinParts cs).toList = pathSep :: (joinParts cs).toList := by
    rw [toList_append]; rfl
  unfold isAbs
  rw [h1]
  simp

theorem isAbs_render_rel (cs : List String)
    (h : ∀ c ∈ cs, c ≠ "" ∧ pathSep ∉ c.toList) :
    isAbs (renderPath false cs) = false := by
  cases cs with
  | nil => decide
  | cons c cs =>
    unfold renderPath
    rw [if_neg (by simp), if_neg (by simp)]
    obtain ⟨hne, hsep⟩ := h c (by simp)
    have hx : ∃ t, (joinParts (c :: cs)).toList = c.toList ++ t := by
      cases cs with
      | nil => exact ⟨[], by simp [joinParts]⟩
      | cons d ds =>
        refine ⟨("/" : String).toList ++ (joinParts (d :: ds)).toList, ?_⟩
        rw [joinParts_cons c (d :: ds) (by simp), toList_append, toList_append,
          List.append_assoc]
    obtain ⟨t, ht⟩ := hx
    unfold isAbs
    rw [ht]
    cases hcl : c.toList with
    | nil => exact absurd (by rw [← mk_toList c, hcl]) hne
    | cons a as =>
      have ha : a ≠ pathSep := by
        intro e
        exact hsep (by rw [hcl, e]; simp)
      simp [ha]

/-! ## Lemmas on `Clean` normalization -/

theorem cleanStep_good (abs : Bool) (acc : List String) (c : String)
    (hacc : ∀ x ∈ acc, GoodComp x) (hc : pathSep ∉ c.toList) :
    ∀ x ∈ cleanStep abs acc c, GoodComp x := by
  intro x hx
  unfold cleanStep at hx
  split at hx
  · exact hacc x hx
  · rename_i hskip
    split at hx
    · rename_i hdd
      split at hx
      · split at hx
        · exact absurd hx (List.not_mem_nil _)
        · rw [List.mem_singleton] at hx
          subst hx
          exact ⟨by decide, by decide, by decide⟩
      · split at hx
        · rcases List.mem_cons.mp hx with h | h
          · subst h
            rw [hdd]
            exact ⟨by decide, by decide, by decide⟩
          · exact hacc x h
        · exact hacc x (List.mem_cons_of_mem _ hx)
    · rcases List.mem_cons.mp hx with h | h
      · have hns : ¬(c = "" ∨ c = ".") := by simpa using hskip
        push_neg at hns
        rw [h]
        exact ⟨hns.1, hns.2, hc⟩
      · exact hacc x h

theorem foldl_cleanStep_good (abs : Bool) (cs : List String)
    (h : ∀ c ∈ cs, pathSep ∉ c.toList) :
    ∀ acc, (∀ x ∈ acc, GoodComp x) →
      ∀ x ∈ cs.foldl (cleanStep abs) acc, GoodComp x := by
  induction cs with
  | nil => intro acc hacc x hx; exact hacc x hx
  | cons c cs ih =>
    intro acc hacc x hx
    rw [List.foldl_cons] at hx
    exact ih (fun d hd => h d (List.mem_cons_of_mem _ hd)) _
      (cleanStep_good abs acc c hacc (h c (by simp))) x hx

theorem cleanParts_good (abs : Bool) (cs : List String)
    (h : ∀ c ∈ cs, pathSep ∉ c.toList) :
    ∀ x ∈ cleanParts abs cs, GoodComp x := by
  intro x hx
  unfold cleanParts at hx
  rw [List.mem_reverse] at hx
  exact foldl_cleanStep_good abs cs h []
    (fun x hx => absurd hx (List.not_mem_nil _)) x hx

theorem cleanStep_absValid (acc : List String) (c : String)
    (hacc : ∀ x ∈ acc, GoodComp x ∧ x ≠ "..") (hc : pathSep ∉ c.toList) :
    ∀ x ∈ cleanStep true acc c, GoodComp x ∧ x ≠ ".." := by
  intro x hx
  unfold cleanStep at hx
  split at hx
  · exact hacc x hx
  · rename_i hskip
    split at hx
    · split at hx
      · simp at hx
      · rename_i a rest
        rw [if_neg (hacc a (by simp)).2] at hx
        exact hacc x (List.mem_cons_of_mem _ hx)
    · rename_i hdd
      rcases List.mem_cons.mp hx with h | h
      · have hns : ¬(c = "" ∨ c = ".") := by simpa using hskip
        push_neg at hns
        rw [h]
        exact ⟨⟨hns.1, hns.2, hc⟩, hdd⟩
      · exact hacc x h

theorem foldl_cleanStep_absValid (cs : List String)
    (h : ∀ c ∈ cs, pathSep ∉ c.toList) :
    ∀ acc, (∀ x ∈ acc, GoodComp x ∧ x ≠ "..") →
      ∀ x ∈ cs.foldl (cleanStep true) acc, GoodComp x ∧ x ≠ ".." := by
  induction cs with
  | nil => intro acc hacc x hx; exact hacc x hx
  | cons c cs ih =>
    intro acc hacc x hx
    rw [List.foldl_cons] at hx
    exact ih (fun d hd => h d (List.mem_cons_of_mem _ hd)) _
      (cleanStep_absValid acc c hacc (h c (by simp))) x hx

theorem cleanParts_absValid (cs : List String)
    (h : ∀ c ∈ cs, pathSep ∉ c.toList) : AbsValid (cleanParts true cs) := by
  intro x hx
  unfold cleanParts at hx
  rw [List.mem_reverse] at hx
  exact foldl_cleanStep_absValid cs h []
    (fun x hx => absurd hx (List.not_mem_nil _)) x hx

theorem foldl_cleanStep_push (abs : Bool) (cs : List String)
    (h : ∀ c ∈ cs, c ≠ "" ∧ c ≠ "." ∧ c ≠ "..") :
    ∀ acc, cs.foldl (cleanStep abs) acc = cs.reverse ++ acc := by
  induction cs with
  | nil => intro acc; simp
  | cons c cs ih =>
    intro acc
    rw [List.foldl_cons]
    have hc := h c (by simp)
    have hstep : cleanStep abs acc c = c :: acc := by
      unfold cleanStep
      rw [if_neg (by simp [hc.1, hc.2.1]), if_neg hc.2.2]
    rw [hstep, ih (fun d hd => h d (List.mem_cons_of_mem _ hd))]
    simp

theorem cleanParts_fix (abs : Bool) (cs : List String)
    (h : ∀ c ∈ cs, c ≠ "" ∧ c ≠ "." ∧ c ≠ "..") : cleanParts abs cs = cs := by
  unfold cleanParts
  rw [foldl_cleanStep_push abs cs h []]
  simp

theorem isAbs_clean (p : String) : isAbs (clean p) = isAbs p := by
  cases h : isAbs p
  · rw [clean, h]
    refine isAbs_render_rel _ ?_
    intro c hc
    have hg := cleanParts_good false (pathParts p)
      (fun d hd => (pathParts_no_sep p d hd).2) c hc
    exact ⟨hg.1, hg.2.2⟩
  · rw [clean, h]
    exact isAbs_render_abs _

theorem pathParts_clean_abs (p : String) (h : isAbs p = true) :
    pathParts (clean p) = cleanParts true (pathParts p) := by
  rw [clean, h]
  refine pathParts_render_abs _ ?_
  intro c hc
  have hg := cleanParts_good true (pathParts p)
    (fun d hd => (pathParts_no_sep p d hd).2) c hc
  exact ⟨hg.1, hg.2.2⟩

theorem abs_canonical (root : String) (ha : isAbs root = true)
    (hc : clean root = root) :
    root = renderPath true (pathParts root) ∧ AbsValid (pathParts root) := by
  have h1 : pathParts (clean root) = cleanParts true (pathParts root) :=
    pathParts_clean_abs root ha
  rw [hc] at h1
  have hvalid : AbsValid (pathParts root) := by
    rw [h1]
    exact cleanParts_absValid _ (fun d hd => (pathParts_no_sep root d hd).2)
  refine ⟨?_, hvalid⟩
  conv_lhs => rw [← hc]
  rw [clean, ha, ← h1]

/-! ## Lemmas on `Rel` and the escape test -/

theorem dropCommonPrefix_nil (bs : List String) : dropCommonPrefix [] bs = ([], bs) := rfl

theorem dropCommonPrefix_nil_right (as : List String) :
    dropCommonPrefix as [] = (as, []) := by
  cases as <;> rfl

theorem dropCommonPrefix_cons (a : String) (as : List String) (b : String) (bs : List String) :
    dropCommonPrefix (a :: as) (b :: bs) =
      if a = b then dropCommonPrefix as bs else (a :: as, b :: bs) := rfl

theorem dropCommonPrefix_spec (as : List String) : ∀ bs, ∃ com,
    as = com ++ (dropCommonPrefix as bs).1 ∧ bs = com ++ (dropCommonPrefix as bs).2 := by
  induction as with
  | nil =>
    intro bs
    exact ⟨[], by simp [dropCommonPrefix_nil], by simp [dropCommonPrefix_nil]⟩
  | cons a as ih =>
    intro bs
    cases bs with
    | nil =>
      exact ⟨[], by simp [dropCommonPrefix_nil_right], by simp [dropCommonPrefix_nil_right]⟩
    | cons b bs =>
      rw [dropCommonPrefix_cons]
      by_cases hab : a = b
      · rw [if_pos hab]
        obtain ⟨com, h1, h2⟩ := ih bs
        exact ⟨a :: com, by rw [List.cons_append, ← h1],
          by rw [hab, List.cons_append, ← h2]⟩
      · rw [if_neg hab]
        exact ⟨[], by simp, by simp⟩

theorem dropCommonPrefix_fst_nil (as bs : List String)
    (h : (dropCommonPrefix as bs).1 = []) : as <+: bs := by
  obtain ⟨com, h1, h2⟩ := dropCommonPrefix_spec as bs
  rw [h] at h1
  simp only [List.append_nil] at h1
  subst h1
  exact ⟨_, h2.symm⟩

theorem dropCommonPrefix_append (as bs : List String) :
    dropCommonPrefix as (as ++ bs) = ([], bs) := by
  induction as with
  | nil => rfl
  | cons a as ih => rw [List.cons_append, dropCommonPrefix_cons, if_pos rfl, ih]

theorem dropCommonPrefix_fst_mem (as bs : List String) (x : String)
    (hx : x ∈ (dropCommonPrefix as bs).1) : x ∈ as := by
  obtain ⟨com, h1, _⟩ := dropCommonPrefix_spec as bs
  rw [h1]
  exact List.mem_append_right _ hx

theorem clean_render_abs (cs : List String) (h : AbsValid cs) :
    clean (renderPath true cs) = renderPath true cs := by
  rw [clean, isAbs_render_abs,
    pathParts_render_abs cs (fun c hc => ⟨(h c hc).1.1, (h c hc).1.2.2⟩),
    cleanParts_fix true cs (fun c hc => ⟨(h c hc).1.1, (h c hc).1.2.1, (h c hc).2⟩)]

theorem render_abs_inj (rc tc : List String)
    (hrc : ∀ c ∈ rc, c ≠ "" ∧ pathSep ∉ c.toList)
    (htc : ∀ c ∈ tc, c ≠ "" ∧ pathSep ∉ c.toList)
    (h : renderPath true rc = renderPath true tc) : rc = tc := by
  rw [← pathParts_render_abs rc hrc, ← pathParts_render_abs tc htc, h]

theorem relPath_render_abs (rc tc : List String) (hrc : AbsValid rc)
    (htc : AbsValid tc) (hne : rc ≠ tc) :
    relPath (renderPath true rc) (renderPath true tc) =
      match dropCommonPrefix rc tc with
      | ([], trest) => some (joinParts trest)
      | (b0 :: brest, trest) =>
        some (joinParts (List.replicate (b0 :: brest).length ".." ++ trest)) := by
  have hrc' : ∀ c ∈ rc, c ≠ "" ∧ pathSep ∉ c.toList :=
    fun c hc => ⟨(hrc c hc).1.1, (hrc c hc).1.2.2⟩
  have htc' : ∀ c ∈ tc, c ≠ "" ∧ pathSep ∉ c.toList :=
    fun c hc => ⟨(htc c hc).1.1, (htc c hc).1.2.2⟩
  unfold relPath
  rw [clean_render_abs rc hrc, clean_render_abs tc htc]
  rw [if_neg (fun h => hne (render_abs_inj rc tc hrc' htc' h))]
  have habseq : ¬ (isAbs (renderPath true rc) ≠ isAbs (renderPath true tc)) := by
    rw [isAbs_render_abs, isAbs_render_abs]
    simp
  rw [if_neg habseq]
  have hdot : ¬ (renderPath true rc = ".") := by
    intro h
    have h2 := isAbs_render_abs rc
    rw [h] at h2
    exact absurd h2 (by decide)
  rw [if_neg hdot, pathParts_render_abs rc hrc', pathParts_render_abs tc htc']
  rcases hd : dropCommonPrefix rc tc with ⟨brest, trest⟩
  cases brest with
  | nil => rfl
  | cons b0 btl =>
    have hb0 : b0 ≠ ".." :=
      (hrc b0 (dropCommonPrefix_fst_mem rc tc b0 (by rw [hd]; exact List.mem_cons_self _ _))).2
    show (if b0 = ".." then none else _) = _
    rw [if_neg hb0]

theorem joinParts_dotdot_prefix (xs : List String) :
    strHasPrefix (joinParts (".." :: xs)) ".." = true := by
  cases xs with
  | nil => decide
  | cons y ys =>
    rw [joinParts_cons _ _ (by simp)]
    unfold strHasPrefix
    rw [toList_append, toList_append]
    have h1 : (".." : String).toList = ['.', '.'] := rfl
    rw [h1, List.append_assoc]
    rw [List.isPrefixOf_iff_prefix]
    exact List.prefix_append _ _

theorem escapes_of_not_prefix (rc tc : List String) (hrc : AbsValid rc)
    (htc : AbsValid tc) (hnp : ¬ rc <+: tc) :
    escapesRoot (renderPath true rc) (renderPath true tc) = true := by
  have hne : rc ≠ tc := fun h => hnp (h ▸ List.prefix_refl rc)
  unfold escapesRoot
  rw [relPath_render_abs rc tc hrc htc hne]
  rcases hd : dropCommonPrefix rc tc with ⟨brest, trest⟩
  cases brest with
  | nil => exact absurd (dropCommonPrefix_fst_nil rc tc (by rw [hd])) hnp
  | cons b0 btl =>
    show strHasPrefix (joinParts (List.replicate (b0 :: btl).length ".." ++ trest)) ".." = true
    rw [List.length_cons, List.replicate_succ, List.cons_append]
    exact joinParts_dotdot_prefix _

theorem relPath_congr_right (base t1 t2 : String) (h : clean t1 = clean t2) :
    relPath base t1 = relPath base t2 := by
  unfold relPath
  rw [h]

theorem escapesRoot_congr_right (root t1 t2 : String) (h : clean t1 = clean t2) :
    escapesRoot root t1 = escapesRoot root t2 := by
  unfold escapesRoot
  rw [relPath_congr_right root t1 t2 h]

/-- The bridge from the specification's lexical-containment reading to the
code's `Rel`-based test: any path lying outside a canonical absolute root
fails the containment check. -/
theorem escapesRoot_of_outside (root targ : String) (ha : isAbs root = true)
    (hc : clean root = root) (ho : outsideRoot root targ) :
    escapesRoot root targ = true := by
  by_cases habs : isAbs targ = true
  · obtain ⟨hroot_eq, hrootValid⟩ := abs_canonical root ha hc
    have htcValid : AbsValid (cleanParts true (pathParts targ)) :=
      cleanParts_absValid _ (fun d hd => (pathParts_no_sep targ d hd).2)
    have htclean : clean targ = renderPath true (cleanParts true (pathParts targ)) := by
      rw [clean, habs]
    have hparts_t : pathParts (clean targ) = cleanParts true (pathParts targ) :=
      pathParts_clean_abs targ habs
    have hnp : ¬ (pathParts root <+: cleanParts true (pathParts targ)) := by
      intro hpre
      refine ho ?_
      rw [hc, hparts_t]
      exact hpre
    have h1 : escapesRoot root targ =
        escapesRoot (renderPath true (pathParts root))
          (renderPath true (cleanParts true (pathParts targ))) := by
      conv_lhs => rw [hroot_eq]
      exact escapesRoot_congr_right _ targ _
        (by rw [htclean, clean_render_abs _ htcValid])
    rw [h1]
    exact escapes_of_not_prefix _ _ hrootValid htcValid hnp
  · have h2 : isAbs (clean targ) = false := by
      rw [isAbs_clean]
      simpa using habs
    have h1 : isAbs (clean root) = true := by rw [hc]; exact ha
    have hbt : ¬ (clean root = clean targ) := by
      intro h
      rw [h] at h1
      rw [h1] at h2
      exact absurd h2 (by decide)
    unfold escapesRoot relPath
    rw [if_neg hbt, if_pos (by rw [h1, h2]; simp)]

/-! ## Lemmas on the validator stages -/

theorem strHasSuffix_refl (s : String) : strHasSuffix s s = true := by
  unfold strHasSuffix
  rw [List.isSuffixOf_iff_suffix]

theorem strHasPrefix_refl (s : String) : strHasPrefix s s = true := by
  unfold strHasPrefix
  rw [List.isPrefixOf_iff_prefix]

/-- The `path == shell` disjunct of the shell detection is redundant: the
detection is pure suffix matching. -/
theorem isShellPath_suffix (path : String) :
    isShellPath path = shellCommands.any (fun sh => strHasSuffix path sh) := by
  unfold isShellPath
  have aux : ∀ l : List String,
      (l.any (fun sh => strHasSuffix path sh || path == sh)) =
        (l.any (fun sh => strHasSuffix path sh)) := by
    intro l
    induction l with
    | nil => rfl
    | cons a rest ih =>
      rw [List.any_cons, List.any_cons, ih]
      by_cases hpa : path = a
      · subst hpa
        rw [strHasSuffix_refl]
        rfl
      · have : (path == a) = false := by
          rw [beq_eq_false_iff_ne]
          exact hpa
        rw [this, Bool.or_false]
  exact aux shellCommands

/-- The `baseName == interp` disjunct of `isInterpreter` is redundant: the
detection is pure prefix matching on the base name. -/
theorem isInterpreter_prefix (cmdPath : String) :
    isInterpreter cmdPath =
      interpreters.any (fun interp => strHasPrefix (basePath cmdPath) interp) := by
  unfold isInterpreter
  have aux : ∀ l : List String,
      (l.any (fun i => basePath cmdPath == i || strHasPrefix (basePath cmdPath) i)) =
        (l.any (fun i => strHasPrefix (basePath cmdPath) i)) := by
    intro l
    induction l with
    | nil => rfl
    | cons a rest ih =>
      rw [List.any_cons, List.any_cons, ih]
      by_cases hpa : basePath cmdPath = a
      · rw [hpa, strHasPrefix_refl]
        simp
      · have : (basePath cmdPath == a) = false := by
          rw [beq_eq_false_iff_ne]
          exact hpa
        rw [this, Bool.false_or]
  exact aux interpreters

theorem shellLoop_eq (args : List String) (acc : Bool) :
    shellLoop args acc =
      if args.contains "-c" then .error .shellDashC
      else .ok (acc || args.any (fun a => !strHasPrefix a "-" && hasScriptSuffix a)) := by
  induction args generalizing acc with
  | nil => simp [shellLoop]
  | cons a rest ih =>
    unfold shellLoop
    by_cases ha : a = "-c"
    · rw [if_pos ha, if_pos (by simp [ha])]
    · rw [if_neg ha, ih]
      have hcon : (a :: rest).contains "-c" = rest.contains "-c" := by
        rw [List.contains_cons]
        have hba : ("-c" == a) = false := by
          rw [beq_eq_false_iff_ne]
          exact fun e => ha e.symm
        rw [hba, Bool.false_or]
      rw [hcon]
      by_cases hc : rest.contains "-c" = true
      · rw [if_pos hc, if_pos hc]
      · rw [if_neg hc, if_neg hc]
        rw [List.any_cons]
        rw [Bool.or_assoc]

theorem argsLoop_step (root wd : String) (i : Nat) (arg : String) (rest : List String) :
    argsLoop root wd i (arg :: rest) =
      if argTrigger root wd arg then some (.argEscapes i arg root (resolveArg wd arg))
      else argsLoop root wd (i + 1) rest := by
  unfold argTrigger
  conv_lhs => unfold argsLoop
  by_cases h1 : ((strContainsChar arg '/' || strContainsChar arg '\\') && !strHasPrefix arg "-") = true
  · rw [if_pos h1]
    by_cases h2 : escapesRoot root (resolveArg wd arg) = true
    · rw [if_pos h2, if_pos (by rw [h1, h2]; rfl)]
    · rw [if_neg h2, if_neg (by rw [h1]; simpa using h2)]
  · rw [if_neg h1, if_neg (fun h => h1 ((Bool.and_eq_true _ _).mp h).1)]

theorem argsLoop_none (root wd : String) (args : List String) :
    ∀ i, (∀ a ∈ args, argTrigger root wd a = false) → argsLoop root wd i args = none := by
  induction args with
  | nil => intro i _; rfl
  | cons a rest ih =>
    intro i h
    rw [argsLoop_step, if_neg (by simp [h a (by simp)])]
    exact ih (i + 1) (fun b hb => h b (List.mem_cons_of_mem _ hb))

theorem argsLoop_first (root wd : String) (args : List String) :
    ∀ i, (∃ a ∈ args, argTrigger root wd a = true) →
      ∃ pre a post, args = pre ++ a :: post ∧
        (∀ b ∈ pre, argTrigger root wd b = false) ∧ argTrigger root wd a = true ∧
        argsLoop root wd i args =
          some (.argEscapes (i + pre.length) a root (resolveArg wd a)) := by
  induction args with
  | nil => intro i h; simp at h
  | cons c rest ih =>
    intro i h
    by_cases hc : argTrigger root wd c = true
    · refine ⟨[], c, rest, by simp, by simp, hc, ?_⟩
      rw [argsLoop_step, if_pos hc]
      simp
    · have hex : ∃ a ∈ rest, argTrigger root wd a = true := by
        rcases h with ⟨a, ha, ht⟩
        rcases List.mem_cons.mp ha with rfl | ha'
        · exact absurd ht hc
        · exact ⟨a, ha', ht⟩
      obtain ⟨pre, a, post, heq, hpre, hta, hloop⟩ := ih (i + 1) hex
      refine ⟨c :: pre, a, post, by rw [heq, List.cons_append], ?_, hta, ?_⟩
      · intro b hb
        rcases List.mem_cons.mp hb with rfl | hb'
        · simpa using hc
        · exact hpre b hb'
      · have harith : i + 1 + pre.length = i + (c :: pre).length := by
          rw [List.length_cons]
          omega
        rw [argsLoop_step, if_neg hc, hloop, harith]

theorem wdGate_ok (root : String) (p : ExecPayload)
    (h : p.workingDir = "" ∨ checkPathWithinRoot root p.workingDir = true) :
    wdGate root p = .ok (effectiveWd root p) := by
  unfold wdGate effectiveWd
  by_cases he : p.workingDir = ""
  · rw [if_neg (by simpa using he), if_pos he]
  · rcases h with h | h
    · exact absurd h he
    · rw [if_pos he, if_pos h, if_neg he]

theorem shellGate_ok (p : ExecPayload)
    (h : isShellPath p.path = true → shellLoop p.args false = .ok true) :
    shellGate p = .ok () := by
  unfold shellGate
  by_cases hs : isShellPath p.path = true
  · rw [if_pos hs, h hs]
    rfl
  · rw [if_neg hs]

theorem validatePaths_unfold (root : String) (p : ExecPayload) (hroot : ¬ root = "") :
    validatePaths root p =
      match shellGate p with
      | .error e => .error e
      | .ok () =>
        match wdGate root p with
        | .error e => .error e
        | .ok wd =>
          match cmdGate root wd p with
          | .error e => .error e
          | .ok () =>
            match argsLoop root wd 0 p.args with
            | some e => .error e
            | none => .ok { p with workingDir := wd } := by
  unfold validatePaths
  rw [if_neg hroot]

theorem isAbs_ne_empty (p : String) (h : isAbs p = true) : p ≠ "" := by
  intro e
  rw [e] at h
  exact absurd h (by decide)

theorem relPath_mixed_none (base targ : String) (hb : isAbs base = true)
    (ht : isAbs targ = false) : relPath base targ = none := by
  have h1 : isAbs (clean base) = true := by rw [isAbs_clean]; exact hb
  have h2 : isAbs (clean targ) = false := by rw [isAbs_clean]; exact ht
  have hbt : ¬ (clean base = clean targ) := by
    intro h
    rw [h] at h1
    rw [h1] at h2
    exact absurd h2 (by decide)
  unfold relPath
  rw [if_neg hbt, if_pos (by rw [h1, h2]; simp)]

/-- An absolute target outside a canonical absolute root yields a
`Rel` result with prefix `".."`. -/
theorem relPath_outside_dotdot (root targ : String) (habs : isAbs root = true)
    (hcanon : clean root = root) (htabs : isAbs targ = true)
    (ho : outsideRoot root targ) :
    ∃ r, relPath root targ = some r ∧ strHasPrefix r ".." = true := by
  obtain ⟨hroot_eq, hrootValid⟩ := abs_canonical root habs hcanon
  have htcValid : AbsValid (cleanParts true (pathParts targ)) :=
    cleanParts_absValid _ (fun d hd => (pathParts_no_sep targ d hd).2)
  have htclean : clean targ = renderPath true (cleanParts true (pathParts targ)) := by
    rw [clean, htabs]
  have hparts_t : pathParts (clean targ) = cleanParts true (pathParts targ) :=
    pathParts_clean_abs targ htabs
  have hnp : ¬ (pathParts root <+: cleanParts true (pathParts targ)) := by
    intro hpre
    refine ho ?_
    rw [hcanon, hparts_t]
    exact hpre
  have hne : pathParts root ≠ cleanParts true (pathParts targ) :=
    fun h => hnp (h ▸ List.prefix_refl _)
  have hcong : relPath root targ =
      relPath (renderPath true (pathParts root))
        (renderPath true (cleanParts true (pathParts targ))) := by
    conv_lhs => rw [hroot_eq]
    exact relPath_congr_right _ targ _ (by rw [htclean, clean_render_abs _ htcValid])
  rw [hcong, relPath_render_abs _ _ hrootValid htcValid hne]
  rcases hd : dropCommonPrefix (pathParts root) (cleanParts true (pathParts targ)) with
    ⟨brest, trest⟩
  cases brest with
  | nil => exact absurd (dropCommonPrefix_fst_nil _ _ (by rw [hd])) hnp
  | cons b0 btl =>
    refine ⟨_, rfl, ?_⟩
    rw [List.length_cons, List.replicate_succ, List.cons_append]
    exact joinParts_dotdot_prefix _

theorem strHasPrefix_slash_dotdot (r : String) (h : strHasPrefix r ".." = true) :
    strHasPrefix ("/" ++ r) "/.." = true := by
  unfold strHasPrefix at h ⊢
  rw [List.isPrefixOf_iff_prefix] at h ⊢
  rw [toList_append]
  obtain ⟨t, ht⟩ := h
  refine ⟨t, ?_⟩
  rw [← ht]
  rfl

theorem ne_slash_of_prefix_slash_dotdot (s : String)
    (h : strHasPrefix s "/.." = true) : s ≠ "/" := by
  intro e
  rw [e] at h
  exact absurd h (by decide)

theorem wdGate_error (root : String) (p : ExecPayload) (e : VError)
    (h : wdGate root p = .error e) : e = .wdOutside p.workingDir root := by
  unfold wdGate at h
  split at h
  · split at h
    · simp at h
    · rw [Except.error.injEq] at h
      exact h.symm
  · simp at h

theorem cmdGate_error (root wd : String) (p : ExecPayload) (e : VError)
    (h : cmdGate root wd p = .error e) : e = .cmdEscapes p.path root := by
  unfold cmdGate at h
  split at h
  · split at h
    · rw [Except.error.injEq] at h
      exact h.symm
    · simp at h
  · simp at h

theorem argsLoop_error (root wd : String) (args : List String) :
    ∀ i e, argsLoop root wd i args = some e →
      ∃ j a r, e = .argEscapes j a root r := by
  induction args with
  | nil => intro i e h; simp [argsLoop] at h
  | cons c rest ih =>
    intro i e h
    rw [argsLoop_step] at h
    split at h
    · rw [Option.some.injEq] at h
      exact ⟨i, c, resolveArg wd c, h.symm⟩
    · exact ih (i + 1) e h

theorem validatePaths_stages (root : String) (p : ExecPayload) (w : String)
    (hroot : ¬ root = "") (hsh : shellGate p = .ok ()) (hwd : wdGate root p = .ok w)
    (hcmd : cmdGate root w p = .ok ()) :
    validatePaths root p =
      match argsLoop root w 0 p.args with
      | some e => .error e
      | none => .ok { p with workingDir := w } := by
  unfold validatePaths
  rw [if_neg hroot]
  simp only [hsh, hwd, hcmd]

theorem validatePaths_shell_error (root : String) (p : ExecPayload) (e : VError)
    (hroot : ¬ root = "") (hsh : shellGate p = .error e) :
    validatePaths root p = .error e := by
  unfold validatePaths
  rw [if_neg hroot]
  simp only [hsh]

/-! ## Claim theorems: the validator and the chroot rewrite -/

/-- **C1 (amended).** With `root_dir` set to a cleaned absolute path and
chroot inactive — provided the shell policy admits the command, the working
directory passes its own check, and the executable-path check passes — if
some argument contains a directory separator, does not begin with `-`, and,
resolved as an absolute path or relative to the (possibly defaulted)
working directory and lexically cleaned, lies outside `root_dir`, then
`validatePaths` returns the argument-escape error naming the index of the
first argument whose containment check fires together with its resolved
path, the server emits a single security-violation error frame, and no
child process is started. -/
theorem c1_argEscape_rejected (cfg : ServerCfg) (p : ExecPayload)
    (env : ExecEnv) (rest : List InItem)
    (hroot : cfg.rootDir ≠ "") (habs : isAbs cfg.rootDir = true)
    (hcanon : clean cfg.rootDir = cfg.rootDir) (hchroot : cfg.chrootActive = false)
    (hsh : isShellPath p.path = true → shellLoop p.args false = .ok true)
    (hwd : p.workingDir = "" ∨ checkPathWithinRoot cfg.rootDir p.workingDir = true)
    (hcmd : cmdGate cfg.rootDir (effectiveWd cfg.rootDir p) p = .ok ())
    (hex : ∃ a ∈ p.args,
      (strContainsChar a '/' = true ∨ strContainsChar a '\\' = true) ∧
      strHasPrefix a "-" = false ∧
      outsideRoot cfg.rootDir (resolveArg (effectiveWd cfg.rootDir p) a)) :
    ∃ pre a post, p.args = pre ++ a :: post ∧
      validatePaths cfg.rootDir p =
        .error (.argEscapes pre.length a cfg.rootDir
          (resolveArg (effectiveWd cfg.rootDir p) a)) ∧
      runExecModel cfg env p rest =
        [.error (.securityViolation (.argEscapes pre.length a cfg.rootDir
          (resolveArg (effectiveWd cfg.rootDir p) a)))] ∧
      ∀ q, execGate cfg p ≠ .proceed q := by
  have htrig : ∃ a ∈ p.args,
      argTrigger cfg.rootDir (effectiveWd cfg.rootDir p) a = true := by
    obtain ⟨a, ha, hsep, hdash, hout⟩ := hex
    refine ⟨a, ha, ?_⟩
    unfold argTrigger
    have hesc := escapesRoot_of_outside _ _ habs hcanon hout
    rcases hsep with hs | hs
    · rw [hs, hdash, hesc]
      rfl
    · rw [hs, hdash, hesc]
      simp
  obtain ⟨pre, a, post, heq, hpre, hta, hloop⟩ :=
    argsLoop_first cfg.rootDir (effectiveWd cfg.rootDir p) p.args 0 htrig
  rw [Nat.zero_add] at hloop
  have hval : validatePaths cfg.rootDir p =
      .error (.argEscapes pre.length a cfg.rootDir
        (resolveArg (effectiveWd cfg.rootDir p) a)) := by
    rw [validatePaths_stages cfg.rootDir p (effectiveWd cfg.rootDir p) hroot
      (shellGate_ok p hsh) (wdGate_ok _ _ hwd) hcmd]
    simp only [hloop]
  have hgate : execGate cfg p = .violation (.argEscapes pre.length a cfg.rootDir
      (resolveArg (effectiveWd cfg.rootDir p) a)) := by
    unfold execGate
    rw [if_pos (by simp [hroot, hchroot])]
    simp only [hval]
  refine ⟨pre, a, post, heq, hval, ?_, ?_⟩
  · unfold runExecModel
    simp only [hgate]
  · intro q h
    rw [hgate] at h
    exact GateResult.noConfusion h

/-- Witness for `c1_argEscape_rejected` at `root_dir = "/tmp/r"` with
arguments `["-v", "../etc/passwd"]`. -/
theorem c1_argEscape_rejected_witness :
    ∃ pre a post,
      (["-v", "../etc/passwd"] : List String) = pre ++ a :: post ∧
      validatePaths "/tmp/r"
        { path := "/bin/cat", args := ["-v", "../etc/passwd"], workingDir := "/tmp/r" } =
        .error (.argEscapes pre.length a "/tmp/r" (resolveArg (effectiveWd "/tmp/r"
          { path := "/bin/cat", args := ["-v", "../etc/passwd"], workingDir := "/tmp/r" }) a)) ∧
      runExecModel { rootDir := "/tmp/r" } {}
        { path := "/bin/cat", args := ["-v", "../etc/passwd"], workingDir := "/tmp/r" } [] =
        [.error (.securityViolation (.argEscapes pre.length a "/tmp/r"
          (resolveArg (effectiveWd "/tmp/r"
            { path := "/bin/cat", args := ["-v", "../etc/passwd"], workingDir := "/tmp/r" }) a)))] ∧
      ∀ q, execGate { rootDir := "/tmp/r" }
        { path := "/bin/cat", args := ["-v", "../etc/passwd"], workingDir := "/tmp/r" } ≠
          .proceed q :=
  c1_argEscape_rejected { rootDir := "/tmp/r" }
    { path := "/bin/cat", args := ["-v", "../etc/passwd"], workingDir := "/tmp/r" } {} []
    (by decide) (by decide) (by decide) (by decide)
    (by intro h; exact absurd h (by decide))
    (Or.inr (by decide)) (by decide)
    ⟨"../etc/passwd", by decide, Or.inl (by decide), by decide, by decide⟩

/-- **C1 counterexample.** The claim as frozen omits the earlier validator
stages: with `path = "bash"` the argument `"/etc/passwd"` satisfies every
premise of the claim (separator, no dash, resolves outside `/tmp/r`), yet
`validatePaths` rejects with the shell-policy error, whose message names no
argument index and no resolved path. -/
theorem c1_counterexample :
    (strContainsChar "/etc/passwd" '/' = true ∧
     strHasPrefix "/etc/passwd" "-" = false ∧
     outsideRoot "/tmp/r" (resolveArg (effectiveWd "/tmp/r"
       { path := "bash", args := ["/etc/passwd"] }) "/etc/passwd")) ∧
    validatePaths "/tmp/r" { path := "bash", args := ["/etc/passwd"] } =
      .error .shellNoScript :=
  ⟨⟨by decide, by decide, by decide⟩, by decide⟩

/-- **C2 (amended).** With `root_dir` set, chroot inactive, and path
validation passing, the request is rejected by the interpreter policy iff
the executable's base name equals or *begins with* one of the deny-list
entries (prefix matching applies to every entry, not only `python*`) and
`allow_insecure` is false; otherwise the request proceeds. -/
theorem c2_interpreter_policy (cfg : ServerCfg) (p q : ExecPayload)
    (hroot : cfg.rootDir ≠ "") (hchroot : cfg.chrootActive = false)
    (hval : validatePaths cfg.rootDir p = .ok q) :
    (execGate cfg p = .interpreterBlocked p.path ↔
      (isInterpreter p.path = true ∧ cfg.allowInsecure = false)) ∧
    (isInterpreter p.path = false → execGate cfg p = .proceed q) ∧
    (cfg.allowInsecure = true → execGate cfg p = .proceed q) ∧
    isInterpreter p.path =
      interpreters.any (fun interp => strHasPrefix (basePath p.path) interp) := by
  have hgate : execGate cfg p =
      (if isInterpreter p.path && !cfg.allowInsecure then .interpreterBlocked p.path
       else .proceed q) := by
    unfold execGate
    rw [if_pos (by simp [hroot, hchroot])]
    simp only [hval]
  refine ⟨?_, ?_, ?_, isInterpreter_prefix p.path⟩
  · constructor
    · intro h
      rw [hgate] at h
      by_cases hc : (isInterpreter p.path && !cfg.allowInsecure) = true
      · obtain ⟨h1, h2⟩ := (Bool.and_eq_true _ _).mp hc
        exact ⟨h1, by simpa using h2⟩
      · rw [if_neg hc] at h
        exact absurd h (by intro h; exact GateResult.noConfusion h)
    · intro ⟨h1, h2⟩
      rw [hgate, if_pos (by rw [h1, h2]; rfl)]
  · intro h
    rw [hgate, if_neg (by rw [h]; simp)]
  · intro h
    rw [hgate, if_neg (by rw [h]; simp)]

/-- Witness for `c2_interpreter_policy`: `python3` is blocked under
`allow_insecure = false`. -/
theorem c2_interpreter_policy_witness :
    (execGate { rootDir := "/tmp/r" } { path := "/usr/bin/python3", args := [] } =
        .interpreterBlocked "/usr/bin/python3" ↔
      (isInterpreter "/usr/bin/python3" = true ∧ false = false)) ∧
    (isInterpreter "/usr/bin/python3" = false →
      execGate { rootDir := "/tmp/r" } { path := "/usr/bin/python3", args := [] } =
        .proceed { path := "/usr/bin/python3", args := [], workingDir := "/tmp/r" }) ∧
    (false = true →
      execGate { rootDir := "/tmp/r" } { path := "/usr/bin/python3", args := [] } =
        .proceed { path := "/usr/bin/python3", args := [], workingDir := "/tmp/r" }) ∧
    isInterpreter "/usr/bin/python3" =
      interpreters.any (fun interp => strHasPrefix (basePath "/usr/bin/python3") interp) :=
  c2_interpreter_policy { rootDir := "/tmp/r" } { path := "/usr/bin/python3", args := [] }
    { path := "/usr/bin/python3", args := [], workingDir := "/tmp/r" }
    (by decide) (by decide) (by decide)

/-- **C2 counterexample.** `nodemon` matches no deny-list entry under the
claim's reading (exact names, `python*` the only prefix pattern), yet the
code blocks it, because `isInterpreter` prefix-matches every entry
(`nodemon` begins with `node`). -/
theorem c2_counterexample :
    specInterpreterMatch (basePath "nodemon") = false ∧
    execGate { rootDir := "/tmp/r" } { path := "nodemon", args := [] } =
      .interpreterBlocked "nodemon" :=
  ⟨by decide, by decide⟩

/-- **C3 (amended).** With `root_dir` set, the shell policy applies exactly
when the executable path string has one of the `shellCommands` entries as a
*suffix* (so `ksh`, `fish`, but also e.g. `ssh`, are caught via the `sh`
suffix, and base names play no role); when it applies, any `-c` argument
rejects the request, and otherwise the request is rejected unless some
argument does not start with `-` and ends in a shell-script suffix. -/
theorem c3_shell_policy (root : String) (p : ExecPayload) (hroot : root ≠ "") :
    (isShellPath p.path = shellCommands.any (fun sh => strHasSuffix p.path sh)) ∧
    (isShellPath p.path = true → p.args.contains "-c" = true →
      validatePaths root p = .error .shellDashC) ∧
    (isShellPath p.path = true → p.args.contains "-c" = false →
      p.args.any (fun a => !strHasPrefix a "-" && hasScriptSuffix a) = false →
      validatePaths root p = .error .shellNoScript) ∧
    (isShellPath p.path = false →
      validatePaths root p ≠ .error .shellDashC ∧
      validatePaths root p ≠ .error .shellNoScript) := by
  refine ⟨isShellPath_suffix p.path, ?_, ?_, ?_⟩
  · intro hs hc
    refine validatePaths_shell_error root p _ hroot ?_
    unfold shellGate
    rw [if_pos hs, shellLoop_eq, if_pos hc]
  · intro hs hc hany
    refine validatePaths_shell_error root p _ hroot ?_
    unfold shellGate
    rw [if_pos hs, shellLoop_eq, if_neg (by rw [hc]; simp), hany]
    rfl
  · intro hs
    have hgate : shellGate p = .ok () := by
      unfold shellGate
      rw [if_neg (by rw [hs]; simp)]
    constructor
    all_goals
      intro hvp
      unfold validatePaths at hvp
      rw [if_neg hroot] at hvp
      simp only [hgate] at hvp
      rcases hwg : wdGate root p with e | w
      · rw [hwg] at hvp
        simp only [] at hvp
        rw [Except.error.injEq] at hvp
        have := wdGate_error root p e hwg
        rw [this] at hvp
        exact VError.noConfusion hvp
      · rw [hwg] at hvp
        simp only [] at hvp
        rcases hcg : cmdGate root w p with e | u
        · rw [hcg] at hvp
          simp only [] at hvp
          rw [Except.error.injEq] at hvp
          have := cmdGate_error root w p e hcg
          rw [this] at hvp
          exact VError.noConfusion hvp
        · cases u
          rw [hcg] at hvp
          simp only [] at hvp
          rcases hal : argsLoop root w 0 p.args with _ | e
          · rw [hal] at hvp
            simp only [] at hvp
            exact Except.noConfusion hvp
          · rw [hal] at hvp
            simp only [] at hvp
            rw [Except.error.injEq] at hvp
            obtain ⟨j, a, r, hje⟩ := argsLoop_error root w p.args 0 e hal
            rw [hje] at hvp
            exact VError.noConfusion hvp

/-- Witness for `c3_shell_policy` at `path = "bash"`. -/
theorem c3_shell_policy_witness :
    (isShellPath "bash" = shellCommands.any (fun sh => strHasSuffix "bash" sh)) ∧
    (isShellPath "bash" = true →
      (["-c", "ls"] : List String).contains "-c" = true →
      validatePaths "/tmp/r" { path := "bash", args := ["-c", "ls"] } =
        .error .shellDashC) ∧
    (isShellPath "bash" = true →
      (["-c", "ls"] : List String).contains "-c" = false →
      (["-c", "ls"] : List String).any
        (fun a => !strHasPrefix a "-" && hasScriptSuffix a) = false →
      validatePaths "/tmp/r" { path := "bash", args := ["-c", "ls"] } =
        .error .shellNoScript) ∧
    (isShellPath "bash" = false →
      validatePaths "/tmp/r" { path := "bash", args := ["-c", "ls"] } ≠
        .error .shellDashC ∧
      validatePaths "/tmp/r" { path := "bash", args := ["-c", "ls"] } ≠
        .error .shellNoScript) :=
  c3_shell_policy "/tmp/r" { path := "bash", args := ["-c", "ls"] } (by decide)

/-- **C3 counterexample.** `ssh` is not in the claim's base-name set, yet
the code applies the shell policy to it (`ssh` ends in `sh`) and rejects
the request for lack of a script argument. -/
theorem c3_counterexample :
    basePath "ssh" ∉ specShellNames ∧
    validatePaths "/r" { path := "ssh", args := ["host"] } = .error .shellNoScript :=
  ⟨by decide, by decide⟩

/-- **C6 (amended).** When a command is prepared for chroot execution, an
empty `working_dir` and a `working_dir` that cannot be made relative to
`root_dir` (e.g. a relative path against the absolute root) yield the jail
root `"/"`; a strict descendant is rewritten to `"/"` plus its path below
the root; but an absolute `working_dir` outside `root_dir` does **not**
fall back to `"/"` — it becomes `"/" ++ Rel(root_dir, working_dir)`, which
begins with `"/.."`. -/
theorem c6_chroot_workdir (root wd : String) (habs : isAbs root = true)
    (hcanon : clean root = root) :
    (prepareDir root "" = "/") ∧
    (wd ≠ "" → isAbs wd = false → prepareDir root wd = "/") ∧
    (isAbs wd = true → outsideRoot root wd →
      strHasPrefix (prepareDir root wd) "/.." = true ∧ prepareDir root wd ≠ "/") ∧
    (∀ ts, ts ≠ [] → isAbs wd = true → pathParts (clean wd) = pathParts root ++ ts →
      prepareDir root wd = "/" ++ joinParts ts) := by
  refine ⟨by simp [prepareDir], ?_, ?_, ?_⟩
  · intro hne hrel
    unfold prepareDir
    rw [if_pos (by simpa using hne), relPath_mixed_none root wd habs hrel]
  · intro htabs ho
    obtain ⟨r, hrel, hpre⟩ := relPath_outside_dotdot root wd habs hcanon htabs ho
    have hwdne : wd ≠ "" := isAbs_ne_empty wd htabs
    have hprep : prepareDir root wd = "/" ++ r := by
      unfold prepareDir
      rw [if_pos (by simpa using hwdne), hrel]
    rw [hprep]
    exact ⟨strHasPrefix_slash_dotdot r hpre,
      ne_slash_of_prefix_slash_dotdot _ (strHasPrefix_slash_dotdot r hpre)⟩
  · intro ts hts htabs hparts
    obtain ⟨hroot_eq, hrootValid⟩ := abs_canonical root habs hcanon
    have hwdne : wd ≠ "" := isAbs_ne_empty wd htabs
    have hparts_t : pathParts (clean wd) = cleanParts true (pathParts wd) :=
      pathParts_clean_abs wd htabs
    have htcValid : AbsValid (cleanParts true (pathParts wd)) :=
      cleanParts_absValid _ (fun d hd => (pathParts_no_sep wd d hd).2)
    have htcValid2 : AbsValid (pathParts root ++ ts) := by
      rw [← hparts, hparts_t]
      exact htcValid
    have htclean : clean wd = renderPath true (pathParts root ++ ts) := by
      rw [← hparts, hparts_t, clean, htabs]
    have hne : pathParts root ≠ pathParts root ++ ts := by
      intro h
      have := congrArg List.length h
      rw [List.length_append] at this
      have h0 : ts.length = 0 := by omega
      exact hts (List.length_eq_zero.mp h0)
    have hcong : relPath root wd =
        relPath (renderPath true (pathParts root))
          (renderPath true (pathParts root ++ ts)) := by
      conv_lhs => rw [hroot_eq]
      exact relPath_congr_right _ wd _ (by rw [htclean, clean_render_abs _ htcValid2])
    have hrel : relPath root wd = some (joinParts ts) := by
      rw [hcong, relPath_render_abs _ _ hrootValid htcValid2 hne,
        dropCommonPrefix_append]
    unfold prepareDir
    rw [if_pos (by simpa using hwdne), hrel]

/-- Witness for `c6_chroot_workdir` at `root_dir = "/tmp/r"`. -/
theorem c6_chroot_workdir_witness :
    prepareDir "/tmp/r" "" = "/" ∧
    prepareDir "/tmp/r" "relative/dir" = "/" ∧
    (strHasPrefix (prepareDir "/tmp/r" "/etc") "/.." = true ∧
      prepareDir "/tmp/r" "/etc" ≠ "/") ∧
    prepareDir "/tmp/r" "/tmp/r/sub" = "/" ++ joinParts ["sub"] := by
  refine ⟨(c6_chroot_workdir "/tmp/r" "" (by decide) (by decide)).1, ?_, ?_, ?_⟩
  · exact (c6_chroot_workdir "/tmp/r" "relative/dir" (by decide) (by decide)).2.1
      (by decide) (by decide)
  · exact (c6_chroot_workdir "/tmp/r" "/etc" (by decide) (by decide)).2.2.1
      (by decide) (by decide)
  · exact (c6_chroot_workdir "/tmp/r" "/tmp/r/sub" (by decide) (by decide)).2.2.2
      ["sub"] (by decide) (by decide) (by decide)

/-- **C6 counterexample.** `working_dir = "/etc"` is not a descendant of
`root_dir = "/tmp/r"`, yet the child's directory is rewritten to
`"/../../etc"`, not the jail root `"/"` the claim requires. -/
theorem c6_counterexample :
    outsideRoot "/tmp/r" "/etc" ∧
    prepareDir "/tmp/r" "/etc" = "/../../etc" ∧
    prepareDir "/tmp/r" "/etc" ≠ "/" :=
  ⟨by decide, by decide, by decide⟩

/-- **C9 (amended).** `validatePaths` never containment-checks an
executable path that is absolute or a bare command name: provided the path
does not suffix-match the shell command list, is not an interpreter name,
and the working directory and all arguments pass their own checks,
validation succeeds — even when the executable lies entirely outside
`root_dir` — and the request proceeds to spawn. -/
theorem c9_exec_path_not_checked (cfg : ServerCfg) (p : ExecPayload)
    (hroot : cfg.rootDir ≠ "") (hchroot : cfg.chrootActive = false)
    (hpath : isAbs p.path = true ∨
      (strContainsChar p.path '/' = false ∧ strContainsChar p.path '\\' = false))
    (hshell : isShellPath p.path = false)
    (hinterp : isInterpreter p.path = false)
    (hwd : p.workingDir = "" ∨ checkPathWithinRoot cfg.rootDir p.workingDir = true)
    (hargs : ∀ a ∈ p.args, argTrigger cfg.rootDir (effectiveWd cfg.rootDir p) a = false) :
    validatePaths cfg.rootDir p = .ok { p with workingDir := effectiveWd cfg.rootDir p } ∧
    execGate cfg p = .proceed { p with workingDir := effectiveWd cfg.rootDir p } := by
  have hcmd : cmdGate cfg.rootDir (effectiveWd cfg.rootDir p) p = .ok () := by
    unfold cmdGate
    rcases hpath with h | ⟨h1, h2⟩
    · rw [if_neg (by rw [h]; simp)]
    · rw [if_neg (by rw [h1, h2]; simp)]
  have hval : validatePaths cfg.rootDir p =
      .ok { p with workingDir := effectiveWd cfg.rootDir p } := by
    rw [validatePaths_stages cfg.rootDir p (effectiveWd cfg.rootDir p) hroot
      (shellGate_ok p (fun h => absurd h (by rw [hshell]; simp)))
      (wdGate_ok _ _ hwd) hcmd]
    simp only [argsLoop_none cfg.rootDir (effectiveWd cfg.rootDir p) p.args 0 hargs]
  refine ⟨hval, ?_⟩
  unfold execGate
  rw [if_pos (by simp [hroot, hchroot])]
  simp only [hval]
  rw [if_neg (by rw [hinterp]; simp)]

/-- Witness for `c9_exec_path_not_checked`: the absolute executable
`/outside/tool` lies outside `/tmp/r` yet validation succeeds. -/
theorem c9_exec_path_not_checked_witness :
    outsideRoot "/tmp/r" "/outside/tool" ∧
    validatePaths "/tmp/r" { path := "/outside/tool", args := ["-f", "data.txt"] } =
      .ok { path := "/outside/tool", args := ["-f", "data.txt"], workingDir := "/tmp/r" } ∧
    execGate { rootDir := "/tmp/r" } { path := "/outside/tool", args := ["-f", "data.txt"] } =
      .proceed { path := "/outside/tool", args := ["-f", "data.txt"], workingDir := "/tmp/r" } := by
  refine ⟨by decide, ?_⟩
  exact c9_exec_path_not_checked { rootDir := "/tmp/r" }
    { path := "/outside/tool", args := ["-f", "data.txt"] }
    (by decide) (by decide) (Or.inl (by decide)) (by decide) (by decide)
    (Or.inl (by decide)) (by decide)

/-- **C9 counterexample.** The claim's conditions hold for
`path = "/outside/ssh"` — absolute, base name `ssh` in neither list, empty
argument list — yet `validatePaths` rejects it: the code's shell detection
is a suffix match on the whole path, and `"/outside/ssh"` ends in `"sh"`. -/
theorem c9_counterexample :
    isAbs "/outside/ssh" = true ∧
    basePath "/outside/ssh" ∉ specShellNames ∧
    specInterpreterMatch (basePath "/outside/ssh") = false ∧
    validatePaths "/r" { path := "/outside/ssh", args := [] } = .error .shellNoScript :=
  ⟨by decide, by decide, by decide, by decide⟩

/-! ## Lemmas on the bounded collector and the stream pump -/

theorem take_append_take (l m : List ℕ) (C : Nat) :
    (l.take C ++ m).take C = (l ++ m).take C := by
  rcases le_or_lt l.length C with h | h
  · rw [List.take_of_length_le h]
  · rw [List.take_append_eq_append_take, List.take_append_eq_append_take,
      List.take_take, List.length_take]
    have h1 : min C l.length = C := by omega
    have h2 : min C C = C := by omega
    rw [h1, h2]
    have h3 : C - C = 0 := by omega
    have h4 : C - l.length = 0 := by omega
    rw [h3, h4]

theorem limitedWrite_take (C : Nat) (buf p : Bytes) (h : buf.length ≤ C) :
    limitedWrite (C : Int) buf p = (buf ++ p).take C := by
  unfold limitedWrite
  by_cases hC : (C : Int) ≤ 0
  · rw [if_pos hC]
    have hC0 : C = 0 := by omega
    subst hC0
    have hb : buf = [] := List.eq_nil_of_length_eq_zero (by omega)
    subst hb
    simp
  · rw [if_neg hC]
    by_cases hr : (C : Int) - buf.length ≤ 0
    · rw [if_pos hr]
      rw [List.take_append_eq_append_take, List.take_of_length_le (by omega)]
      have h0 : C - buf.length = 0 := by omega
      rw [h0]
      simp
    · rw [if_neg hr]
      by_cases hp : (p.length : Int) > (C : Int) - buf.length
      · rw [if_pos hp]
        rw [List.take_append_eq_append_take, @List.take_of_length_le ℕ C buf h]
        have h1 : ((C : Int) - buf.length).toNat = C - buf.length := by omega
        rw [h1]
      · rw [if_neg hp]
        rw [@List.take_of_length_le ℕ C (buf ++ p) (by rw [List.length_append]; omega)]

theorem limitedWrite_length (C : Nat) (buf p : Bytes) (h : buf.length ≤ C) :
    (limitedWrite (C : Int) buf p).length ≤ C := by
  rw [limitedWrite_take C buf p h]
  rw [List.length_take]
  omega

theorem streamPipeFold_cons (C : Int) (stream : Bool) (typ : Bytes → OutFrame)
    (init : Bytes × List OutFrame) (chunk : Bytes) (rest : List Bytes) :
    streamPipeFold C stream typ init (chunk :: rest) =
      streamPipeFold C stream typ
        (if chunk.length > 0 then
          (limitedWrite C init.1 chunk, init.2 ++ if stream then [typ chunk] else [])
        else init) rest := rfl

theorem streamPipeFold_fst (C : Nat) (stream : Bool) (typ : Bytes → OutFrame)
    (reads : List Bytes) :
    ∀ buf0 fr0, buf0.length ≤ C →
      (streamPipeFold (C : Int) stream typ (buf0, fr0) reads).1 =
        (buf0 ++ reads.flatten).take C := by
  induction reads with
  | nil =>
    intro buf0 fr0 h
    unfold streamPipeFold
    simp only [List.foldl_nil, List.flatten_nil, List.append_nil]
    rw [List.take_of_length_le h]
  | cons chunk rest ih =>
    intro buf0 fr0 h
    rw [streamPipeFold_cons]
    by_cases hc : chunk.length > 0
    · rw [if_pos hc]
      rw [ih _ _ (limitedWrite_length C buf0 chunk h)]
      rw [limitedWrite_take C buf0 chunk h]
      rw [take_append_take]
      rw [List.flatten_cons, List.append_assoc]
    · rw [if_neg hc]
      have hch : chunk = [] := List.eq_nil_of_length_eq_zero (by omega)
      subst hch
      rw [ih _ _ h, List.flatten_cons]
      rfl

theorem streamPipeFold_data (C : Int) (typ : Bytes → OutFrame)
    (hdata : ∀ d, frameData (typ d) = d) (reads : List Bytes) :
    ∀ buf0 fr0,
      ((streamPipeFold C true typ (buf0, fr0) reads).2.map frameData).flatten =
        (fr0.map frameData).flatten ++ reads.flatten := by
  induction reads with
  | nil =>
    intro buf0 fr0
    unfold streamPipeFold
    simp
  | cons chunk rest ih =>
    intro buf0 fr0
    rw [streamPipeFold_cons]
    by_cases hc : chunk.length > 0
    · rw [if_pos hc]
      show ((streamPipeFold C true typ (limitedWrite C buf0 chunk, fr0 ++ [typ chunk]) rest).2.map
        frameData).flatten = _
      rw [ih]
      rw [List.map_append, List.flatten_append, List.flatten_cons]
      simp [hdata]
    · rw [if_neg hc]
      have hch : chunk = [] := List.eq_nil_of_length_eq_zero (by omega)
      subst hch
      rw [ih, List.flatten_cons]
      rfl

/-- **C5.** For any sequence of writes totalling `N` bytes into the bounded
collector with cap `C > 0` (feeding `streamPipe` with `stream = true`): the
collector's final contents are the first `min(N, C)` bytes of the
concatenated writes, hence a prefix that never exceeds `C`; the contents
grow monotonically along the sequence of writes; and every nonempty chunk
is still forwarded in full on the streaming channel, so the streamed chunk
payloads concatenate to the full output and their lengths sum to `N`. -/
theorem c5_buffer_cap (C : Nat) (hC : 0 < C) (reads : List Bytes) :
    (streamPipeModel (C : Int) true OutFrame.stdout reads).1 =
      reads.flatten.take (min reads.flatten.length C) ∧
    (streamPipeModel (C : Int) true OutFrame.stdout reads).1 <+: reads.flatten ∧
    (streamPipeModel (C : Int) true OutFrame.stdout reads).1.length ≤ C ∧
    (∀ i, (streamPipeModel (C : Int) true OutFrame.stdout (reads.take i)).1 <+:
      (streamPipeModel (C : Int) true OutFrame.stdout reads).1) ∧
    ((streamPipeModel (C : Int) true OutFrame.stdout reads).2.map frameData).flatten =
      reads.flatten ∧
    (((streamPipeModel (C : Int) true OutFrame.stdout reads).2.map frameData).map
      List.length).sum = reads.flatten.length := by
  have hfst : ∀ l : List Bytes, (streamPipeModel (C : Int) true OutFrame.stdout l).1 =
      l.flatten.take C := by
    intro l
    unfold streamPipeModel
    rw [streamPipeFold_fst C true OutFrame.stdout l [] [] (by simp)]
    rfl
  have hdat : ((streamPipeModel (C : Int) true OutFrame.stdout reads).2.map frameData).flatten =
      reads.flatten := by
    unfold streamPipeModel
    rw [streamPipeFold_data (C : Int) OutFrame.stdout (fun d => rfl) reads [] []]
    rfl
  refine ⟨?_, ?_, ?_, ?_, hdat, ?_⟩
  · rw [hfst]
    rw [List.take_eq_take]
    omega
  · rw [hfst]
    exact List.take_prefix _ _
  · rw [hfst, List.length_take]
    omega
  · intro i
    rw [hfst, hfst]
    have hsplit : reads.flatten = (reads.take i).flatten ++ (reads.drop i).flatten := by
      rw [← List.flatten_append, List.take_append_drop]
    rw [hsplit, List.take_append_eq_append_take]
    exact List.prefix_append _ _
  · rw [← List.length_flatten, hdat]

/-- Witness for `c5_buffer_cap` at cap 4 with writes `[1,2,3]`, `[4,5]`. -/
theorem c5_buffer_cap_witness :
    (streamPipeModel (4 : Int) true OutFrame.stdout [[1, 2, 3], [4, 5]]).1 =
      ([[1, 2, 3], [4, 5]] : List Bytes).flatten.take
        (min ([[1, 2, 3], [4, 5]] : List Bytes).flatten.length 4) ∧
    (streamPipeModel (4 : Int) true OutFrame.stdout [[1, 2, 3], [4, 5]]).1 <+:
      ([[1, 2, 3], [4, 5]] : List Bytes).flatten ∧
    (streamPipeModel (4 : Int) true OutFrame.stdout [[1, 2, 3], [4, 5]]).1.length ≤ 4 ∧
    (∀ i, (streamPipeModel (4 : Int) true OutFrame.stdout
        (([[1, 2, 3], [4, 5]] : List Bytes).take i)).1 <+:
      (streamPipeModel (4 : Int) true OutFrame.stdout [[1, 2, 3], [4, 5]]).1) ∧
    ((streamPipeModel (4 : Int) true OutFrame.stdout [[1, 2, 3], [4, 5]]).2.map
      frameData).flatten = ([[1, 2, 3], [4, 5]] : List Bytes).flatten ∧
    (((streamPipeModel (4 : Int) true OutFrame.stdout [[1, 2, 3], [4, 5]]).2.map
      frameData).map List.length).sum = ([[1, 2, 3], [4, 5]] : List Bytes).flatten.length :=
  c5_buffer_cap 4 (by decide) [[1, 2, 3], [4, 5]]

/-! ## Lemmas on the file transfer handlers -/

theorem filePutLoop_chunks (chunks : List Bytes) :
    ∀ written, filePutLoop ((chunks.map (fun d => InItem.ok (.filePutChunk (some d)))) ++
        [InItem.ok .filePutClose]) written =
      (written ++ chunks.flatten, [.filePutResult (written ++ chunks.flatten).length]) := by
  induction chunks with
  | nil =>
    intro written
    simp [filePutLoop]
  | cons d rest ih =>
    intro written
    simp only [List.map_cons, List.cons_append]
    rw [filePutLoop]
    by_cases hd : d.length > 0
    · rw [if_pos hd, ih, List.flatten_cons, List.append_assoc]
    · rw [if_neg hd, ih]
      have hdn : d = [] := List.eq_nil_of_length_eq_zero (by omega)
      subst hdn
      rw [List.flatten_cons]
      rfl

theorem fileGetChunks_join (c : Nat) (hc : 0 < c) (data : Bytes) :
    (fileGetChunks c data).flatten = data := by
  rw [fileGetChunks]
  split
  · rename_i h
    rcases h with h | h
    · exact absurd h (by omega)
    · rw [h]
      rfl
  · rename_i h
    rw [List.flatten_cons, fileGetChunks_join c hc (data.drop c)]
    exact List.take_append_drop c data
termination_by data.length
decreasing_by
  simp only [not_or] at *
  rename_i h
  have hlen : 0 < data.length := List.length_pos.mpr h.2
  simp only [List.length_drop]
  omega

/-- **C7.** A `file_put_chunk*`/`file_put_close` upload of chunks writes
exactly their concatenation `F` and replies `file_put_result` with
`bytes = |F|`; a `file_get_request` on the same path streams chunks whose
concatenation equals `F` and ends with `file_get_result` reporting
`bytes = |F|`: the put-then-get round trip is byte-identical. -/
theorem c7_file_roundtrip (path : String) (mode : Nat) (chunks : List Bytes)
    (cfg : ServerCfg) (hpath : path ≠ "") (hc : 0 < cfg.chunkSize) :
    handleFilePutModel ⟨path, mode⟩
        ((chunks.map (fun d => InItem.ok (.filePutChunk (some d)))) ++
          [InItem.ok .filePutClose]) =
      (chunks.flatten, [.filePutResult chunks.flatten.length]) ∧
    handleFileGetModel cfg (fun q => if q = path then some chunks.flatten else none) ⟨path⟩ =
      (fileGetChunks cfg.chunkSize chunks.flatten).map OutFrame.fileGetChunk ++
        [.fileGetResult chunks.flatten.length ""] ∧
    (fileGetChunks cfg.chunkSize chunks.flatten).flatten = chunks.flatten := by
  refine ⟨?_, ?_, fileGetChunks_join _ hc _⟩
  · unfold handleFilePutModel
    rw [if_neg hpath, filePutLoop_chunks chunks []]
    rfl
  · unfold handleFileGetModel
    rw [if_neg hpath]
    simp

/-- Witness for `c7_file_roundtrip` on two chunks at chunk size 2. -/
theorem c7_file_roundtrip_witness :
    handleFilePutModel ⟨"/data/f.bin", 420⟩
        ((([[10, 11, 12], [13]] : List Bytes).map
          (fun d => InItem.ok (.filePutChunk (some d)))) ++ [InItem.ok .filePutClose]) =
      (([[10, 11, 12], [13]] : List Bytes).flatten,
        [.filePutResult ([[10, 11, 12], [13]] : List Bytes).flatten.length]) ∧
    handleFileGetModel { chunkSize := 2 }
        (fun q => if q = "/data/f.bin" then some ([[10, 11, 12], [13]] : List Bytes).flatten
          else none) ⟨"/data/f.bin"⟩ =
      (fileGetChunks 2 ([[10, 11, 12], [13]] : List Bytes).flatten).map OutFrame.fileGetChunk ++
        [.fileGetResult ([[10, 11, 12], [13]] : List Bytes).flatten.length ""] ∧
    (fileGetChunks 2 ([[10, 11, 12], [13]] : List Bytes).flatten).flatten =
      ([[10, 11, 12], [13]] : List Bytes).flatten :=
  c7_file_roundtrip "/data/f.bin" 420 [[10, 11, 12], [13]] { chunkSize := 2 }
    (by decide) (by decide)

/-! ## Lemmas on the environment merge -/

theorem hasKey_iff_mem (m : List (String × String)) (k : String) :
    hasKey m k = true ↔ k ∈ m.map Prod.fst := by
  unfold hasKey
  rw [List.any_eq_true]
  constructor
  · rintro ⟨kv, hkv, hk⟩
    rw [List.mem_map]
    exact ⟨kv, hkv, by simpa using hk⟩
  · intro h
    rw [List.mem_map] at h
    obtain ⟨kv, hkv, hk⟩ := h
    exact ⟨kv, hkv, by simpa using hk⟩

theorem lookupEnv_none_iff (m : List (String × String)) (k : String) :
    lookupEnv m k = none ↔ hasKey m k = false := by
  unfold lookupEnv
  rw [Option.map_eq_none', List.find?_eq_none]
  constructor
  · intro h
    rw [← Bool.not_eq_true, hasKey_iff_mem, List.mem_map]
    rintro ⟨kv, hkv, hk⟩
    exact absurd (by simpa using hk) (by simpa using h kv hkv)
  · intro h kv hkv
    intro hp
    have : k ∈ m.map Prod.fst := List.mem_map.mpr ⟨kv, hkv, by simpa using hp⟩
    rw [← hasKey_iff_mem, h] at this
    exact Bool.noConfusion this

theorem lookupEnv_filter_of_not_over (base overrides : List (String × String))
    (k : String) (h : hasKey overrides k = false) :
    lookupEnv (base.filter (fun kv => !hasKey overrides kv.1)) k = lookupEnv base k := by
  induction base with
  | nil => rfl
  | cons kv rest ih =>
    rw [List.filter_cons]
    by_cases hk : kv.1 = k
    · have hkeep : (!hasKey overrides kv.1) = true := by rw [hk, h]; rfl
      rw [if_pos hkeep]
      unfold lookupEnv
      rw [List.find?_cons_of_pos _ (by simpa using hk), List.find?_cons_of_pos _ (by simpa using hk)]
    · by_cases hkeep : (!hasKey overrides kv.1) = true
      · rw [if_pos hkeep]
        unfold lookupEnv
        rw [List.find?_cons_of_neg _ (by simpa using hk), List.find?_cons_of_neg _ (by simpa using hk)]
        exact ih
      · rw [if_neg hkeep]
        unfold lookupEnv
        rw [List.find?_cons_of_neg _ (by simpa using hk)]
        exact ih

theorem lookupEnv_filter_of_over (base overrides : List (String × String))
    (k : String) (h : hasKey overrides k = true) :
    lookupEnv (base.filter (fun kv => !hasKey overrides kv.1)) k = none := by
  unfold lookupEnv
  rw [Option.map_eq_none', List.find?_eq_none]
  intro kv hkv
  rw [List.mem_filter] at hkv
  intro hp
  have hk1 : kv.1 = k := by simpa using hp
  have := hkv.2
  rw [hk1, h] at this
  exact Bool.noConfusion this

theorem lookupEnv_append (m1 m2 : List (String × String)) (k : String) :
    lookupEnv (m1 ++ m2) k =
      match lookupEnv m1 k with
      | some v => some v
      | none => lookupEnv m2 k := by
  unfold lookupEnv
  rw [List.find?_append]
  rcases h : m1.find? (fun kv => kv.1 = k) with _ | kv
  · rw [h]
    rfl
  · rw [h]
    rfl

/-- **C8.** The merged environment binds every key to the request's value
when the request provides one and to the base value otherwise; its keys are
pairwise distinct, so the flattened list carries exactly one `"k=v"` entry
per merged binding; and in the server's exec path the base of the merge is
the empty environment, so the child environment is exactly the flattening
of the request's `env` map. -/
theorem c8_env_merge (base overrides : List (String × String))
    (hb : (base.map Prod.fst).Nodup) (ho : (overrides.map Prod.fst).Nodup) :
    (∀ k, lookupEnv (mergeEnv base overrides) k =
      match lookupEnv overrides k with
      | some v => some v
      | none => lookupEnv base k) ∧
    ((mergeEnv base overrides).map Prod.fst).Nodup ∧
    flattenEnv base overrides =
      (mergeEnv base overrides).map (fun kv => kv.1 ++ "=" ++ kv.2) ∧
    (∀ p : ExecPayload, serverExecEnv p = p.env.map (fun kv => kv.1 ++ "=" ++ kv.2)) := by
  refine ⟨?_, ?_, rfl, fun p => rfl⟩
  · intro k
    unfold mergeEnv
    rw [lookupEnv_append]
    rcases hover : lookupEnv overrides k with _ | v
    · have hkf : hasKey overrides k = false := (lookupEnv_none_iff _ _).mp hover
      rw [lookupEnv_filter_of_not_over base overrides k hkf]
      rcases lookupEnv base k with _ | w
      · rfl
      · rfl
    · have hkt : hasKey overrides k = true := by
        rcases h : hasKey overrides k with _ | _
        · rw [(lookupEnv_none_iff _ _).mpr h] at hover
          exact Option.noConfusion hover
        · rfl
      rw [lookupEnv_filter_of_over base overrides k hkt]
  · unfold mergeEnv
    rw [List.map_append]
    refine List.Nodup.append ?_ ho ?_
    · have hsub : List.Sublist
          ((base.filter (fun kv => !hasKey overrides kv.1)).map Prod.fst)
          (base.map Prod.fst) := (List.filter_sublist _).map _
      exact hb.sublist hsub
    · intro x hx1 hx2
      rw [List.mem_map] at hx1
      obtain ⟨kv, hkv, hx⟩ := hx1
      rw [List.mem_filter] at hkv
      have : hasKey overrides x = true := (hasKey_iff_mem _ _).mpr hx2
      rw [← hx] at this
      have h2 := hkv.2
      rw [this] at h2
      exact Bool.noConfusion h2

/-- Witness for `c8_env_merge` on concrete two-entry maps. -/
theorem c8_env_merge_witness :
    (∀ k, lookupEnv (mergeEnv [("A", "1"), ("B", "2")] [("B", "9"), ("C", "3")]) k =
      match lookupEnv [("B", "9"), ("C", "3")] k with
      | some v => some v
      | none => lookupEnv [("A", "1"), ("B", "2")] k) ∧
    ((mergeEnv [("A", "1"), ("B", "2")] [("B", "9"), ("C", "3")]).map Prod.fst).Nodup ∧
    flattenEnv [("A", "1"), ("B", "2")] [("B", "9"), ("C", "3")] =
      (mergeEnv [("A", "1"), ("B", "2")] [("B", "9"), ("C", "3")]).map
        (fun kv => kv.1 ++ "=" ++ kv.2) ∧
    (∀ p : ExecPayload, serverExecEnv p = p.env.map (fun kv => kv.1 ++ "=" ++ kv.2)) :=
  c8_env_merge [("A", "1"), ("B", "2")] [("B", "9"), ("C", "3")]
    (by decide) (by decide)

/-! ## Lemmas on terminal-frame accounting -/

theorem terminalCount_append (a b : List OutFrame) :
    terminalCount (a ++ b) = terminalCount a + terminalCount b := by
  unfold terminalCount
  rw [List.filter_append, List.length_append]

theorem terminalCount_streamPipeFold (C : Int) (stream : Bool) (typ : Bytes → OutFrame)
    (hterm : ∀ d, (typ d).isTerminal = false) (reads : List Bytes) :
    ∀ init : Bytes × List OutFrame,
      terminalCount (streamPipeFold C stream typ init reads).2 = terminalCount init.2 := by
  induction reads with
  | nil => intro init; rfl
  | cons chunk rest ih =>
    intro init
    rw [streamPipeFold_cons]
    by_cases hc : chunk.length > 0
    · rw [if_pos hc, ih]
      show terminalCount (init.2 ++ if stream then [typ chunk] else []) = terminalCount init.2
      rw [terminalCount_append]
      have hX : terminalCount (if stream then [typ chunk] else []) = 0 := by
        cases stream
        · rfl
        · show terminalCount [typ chunk] = 0
          unfold terminalCount
          rw [List.filter_cons, hterm]
          rfl
      rw [hX, Nat.add_zero]
    · rw [if_neg hc, ih]

theorem terminalCount_consumeStdin (items : List InItem) :
    terminalCount (consumeStdinModel items) = 0 := by
  induction items with
  | nil => rfl
  | cons it rest ih =>
    cases it with
    | malformed => rfl
    | ok f =>
      cases f with
      | ping =>
        show terminalCount (.pong :: consumeStdinModel rest) = 0
        unfold terminalCount at ih ⊢
        rw [List.filter_cons, show OutFrame.pong.isTerminal = false from rfl]
        simpa using ih
      | stdinChunk d => exact ih
      | stdinClose => rfl
      | execReq p => rfl
      | filePutReq p => rfl
      | fileGetReq p => rfl
      | filePutChunk d => rfl
      | filePutClose => rfl
      | other => rfl

theorem terminalCount_runExec (s : ServerCfg) (env : ExecEnv) (p : ExecPayload)
    (rest : List InItem) : terminalCount (runExecModel s env p rest) = 1 := by
  unfold runExecModel
  rcases hg : execGate s p with e | q | p'
  · rfl
  · rfl
  · rcases h1 : env.stdinPipeErr with _ | m
    · rcases h2 : env.stdoutPipeErr with _ | m
      · rcases h3 : env.stderrPipeErr with _ | m
        · rcases h4 : env.startErr with _ | m
          · rw [terminalCount_append, terminalCount_append, terminalCount_append]
            have hso : terminalCount (streamPipeModel s.bufLimit p'.stream OutFrame.stdout
                env.stdoutReads).2 = 0 := by
              unfold streamPipeModel
              rw [terminalCount_streamPipeFold s.bufLimit p'.stream OutFrame.stdout
                (fun d => rfl) env.stdoutReads]
              rfl
            have hse : terminalCount (streamPipeModel s.bufLimit p'.stream OutFrame.stderr
                env.stderrReads).2 = 0 := by
              unfold streamPipeModel
              rw [terminalCount_streamPipeFold s.bufLimit p'.stream OutFrame.stderr
                (fun d => rfl) env.stderrReads]
              rfl
            rw [hso, hse, terminalCount_consumeStdin]
            rcases h5 : env.waitFailure with _ | m
            · rfl
            · rfl
          · rfl
        · rfl
      · rfl
    · rfl

theorem terminalCount_filePutLoop (items : List InItem) :
    ∀ w, terminalCount (filePutLoop items w).2 = 1 := by
  induction items with
  | nil => intro w; rfl
  | cons it rest ih =>
    intro w
    cases it with
    | malformed => rfl
    | ok f =>
      cases f with
      | filePutChunk d =>
        cases d with
        | none => rfl
        | some d =>
          show terminalCount (if d.length > 0 then filePutLoop rest (w ++ d)
            else filePutLoop rest w).2 = 1
          by_cases hd : d.length > 0
          · rw [if_pos hd]
            exact ih _
          · rw [if_neg hd]
            exact ih _
      | filePutClose => rfl
      | ping => rfl
      | stdinChunk d => rfl
      | stdinClose => rfl
      | execReq p => rfl
      | filePutReq p => rfl
      | fileGetReq p => rfl
      | other => rfl

theorem terminalCount_map_chunks (l : List Bytes) :
    terminalCount (l.map OutFrame.fileGetChunk) = 0 := by
  induction l with
  | nil => rfl
  | cons d rest ih =>
    unfold terminalCount at ih ⊢
    rw [List.map_cons, List.filter_cons,
      show (OutFrame.fileGetChunk d).isTerminal = false from rfl]
    simpa using ih

theorem terminalCount_fileGet (s : ServerCfg) (fs : String → Option Bytes)
    (g : GetPayload) : terminalCount (handleFileGetModel s fs g) = 1 := by
  unfold handleFileGetModel
  by_cases hp : g.path = ""
  · rw [if_pos hp]
    rfl
  · rw [if_neg hp]
    rcases hf : fs g.path with _ | data
    · rfl
    · rw [terminalCount_append, terminalCount_map_chunks]
      rfl

theorem terminalCount_filePut (p : PutPayload) (rest : List InItem) :
    terminalCount (handleFilePutModel p rest).2 = 1 := by
  unfold handleFilePutModel
  by_cases hp : p.path = ""
  · rw [if_pos hp]
    rfl
  · rw [if_neg hp]
    exact terminalCount_filePutLoop rest []

/-- **C4 (amended).** Whenever the connection dispatches a request — the
first non-`ping` read is a well-formed frame — the server emits exactly one
terminal frame from {`result`, `file_put_result`, `file_get_result`,
`error`} before closing; a first frame of an unsupported type or with an
undecodable payload is answered with an error frame; but a wire-level
malformed frame (a `readFrame` decode failure) or EOF closes the connection
with no terminal frame at all. -/
theorem c4_one_terminal (s : ServerCfg) (cenv : ConnEnv) (items : List InItem) :
    terminalCount (handleConnModel s cenv items) =
      if reachesDispatch items then 1 else 0 := by
  induction items with
  | nil => rfl
  | cons it rest ih =>
    cases it with
    | malformed => rfl
    | ok f =>
      cases f with
      | ping =>
        show terminalCount (.pong :: handleConnModel s cenv rest) =
          if reachesDispatch rest then 1 else 0
        unfold terminalCount at ih ⊢
        rw [List.filter_cons, show OutFrame.pong.isTerminal = false from rfl]
        simpa using ih
      | execReq p =>
        cases p with
        | none => rfl
        | some p => exact terminalCount_runExec s cenv.exec p rest
      | filePutReq p =>
        cases p with
        | none => rfl
        | some p => exact terminalCount_filePut p rest
      | fileGetReq p =>
        cases p with
        | none => rfl
        | some g => exact terminalCount_fileGet s cenv.fs g
      | stdinChunk d => rfl
      | stdinClose => rfl
      | filePutChunk d => rfl
      | filePutClose => rfl
      | other => rfl

/-- **C4 counterexample.** A first frame that is malformed at the wire
level (a `readFrame` decode failure) is *not* answered with an error frame:
the connection closes silently, with no frame at all. -/
theorem c4_counterexample :
    handleConnModel {} {} [InItem.malformed] = ([] : List OutFrame) ∧
    terminalCount (handleConnModel {} {} [InItem.malformed]) = 0 :=
  ⟨rfl, rfl⟩

/-! ## Lemmas on the frame codec -/

theorem b64Index_b64Char : ∀ n, n < 64 → b64Index (b64Char n) = some n := by decide

theorem b64Char_ne_pad (n : Nat) : b64Char n ≠ '=' := by
  by_cases h : n < 64
  · have hall : ∀ m, m < 64 → b64Char m ≠ '=' := by decide
    exact hall n h
  · unfold b64Char
    rw [List.getD_eq_default]
    · decide
    · have hl : b64Alphabet.length = 64 := by decide
      omega

theorem base64_roundtrip : ∀ (bs : Bytes), (∀ b ∈ bs, b < 256) →
    base64Decode (base64Encode bs) = some bs
  | [], _ => rfl
  | [b0], h => by
    have hb0 : b0 < 256 := h b0 (by simp)
    show base64Decode [b64Char (b0 / 4), b64Char (b0 % 4 * 16), '=', '='] = some [b0]
    simp only [base64Decode, b64Index_b64Char (b0 / 4) (by omega),
      b64Index_b64Char (b0 % 4 * 16) (by omega)]
    rw [if_pos trivial, if_pos ⟨trivial, trivial⟩]
    have harith : b0 / 4 * 4 + b0 % 4 * 16 / 16 = b0 := by omega
    rw [harith]
  | [b0, b1], h => by
    have hb0 : b0 < 256 := h b0 (by simp)
    have hb1 : b1 < 256 := h b1 (by simp)
    show base64Decode [b64Char (b0 / 4), b64Char (b0 % 4 * 16 + b1 / 16),
      b64Char (b1 % 16 * 4), '='] = some [b0, b1]
    simp only [base64Decode, b64Index_b64Char (b0 / 4) (by omega),
      b64Index_b64Char (b0 % 4 * 16 + b1 / 16) (by omega),
      b64Index_b64Char (b1 % 16 * 4) (by omega)]
    rw [if_neg (b64Char_ne_pad _), if_pos trivial, if_pos trivial]
    have h1 : b0 / 4 * 4 + (b0 % 4 * 16 + b1 / 16) / 16 = b0 := by omega
    have h2 : (b0 % 4 * 16 + b1 / 16) % 16 * 16 + b1 % 16 * 4 / 4 = b1 := by omega
    rw [h1, h2]
  | b0 :: b1 :: b2 :: rest, h => by
    have hb0 : b0 < 256 := h b0 (by simp)
    have hb1 : b1 < 256 := h b1 (by simp)
    have hb2 : b2 < 256 := h b2 (by simp)
    have hrest : ∀ b ∈ rest, b < 256 :=
      fun b hb => h b (List.mem_cons_of_mem _ (List.mem_cons_of_mem _
        (List.mem_cons_of_mem _ hb)))
    show base64Decode (b64Char (b0 / 4) :: b64Char (b0 % 4 * 16 + b1 / 16) ::
      b64Char (b1 % 16 * 4 + b2 / 64) :: b64Char (b2 % 64) :: base64Encode rest) =
      some (b0 :: b1 :: b2 :: rest)
    simp only [base64Decode, b64Index_b64Char (b0 / 4) (by omega),
      b64Index_b64Char (b0 % 4 * 16 + b1 / 16) (by omega),
      b64Index_b64Char (b1 % 16 * 4 + b2 / 64) (by omega),
      b64Index_b64Char (b2 % 64) (by omega),
      base64_roundtrip rest hrest]
    rw [if_neg (b64Char_ne_pad _), if_neg (b64Char_ne_pad _)]
    have h1 : b0 / 4 * 4 + (b0 % 4 * 16 + b1 / 16) / 16 = b0 := by omega
    have h2 : (b0 % 4 * 16 + b1 / 16) % 16 * 16 + (b1 % 16 * 4 + b2 / 64) / 4 = b1 := by
      omega
    have h3 : (b1 % 16 * 4 + b2 / 64) % 4 * 64 + b2 % 64 = b2 := by omega
    rw [h1, h2, h3]

theorem mapMOpt_str (args : List String) :
    mapMOpt (fun j => match j with | .str s => some s | _ => none)
      (args.map Json.str) = some args := by
  induction args with
  | nil => rfl
  | cons a rest ih => simp [mapMOpt, ih]

theorem mapMOpt_env (env : List (String × String)) :
    mapMOpt (fun kv => match kv.2 with | .str s => some (kv.1, s) | _ => none)
      (env.map (fun kv => (kv.1, Json.str kv.2))) = some env := by
  induction env with
  | nil => rfl
  | cons kv rest ih => simp [mapMOpt, ih]

theorem jStrList_arr (args : List String) :
    jStrList (some (.arr (args.map Json.str))) = some args :=
  mapMOpt_str args

theorem jEnv_obj (env : List (String × String)) :
    jEnv (some (envJson env)) = some env :=
  mapMOpt_env env

theorem jBytes_bytesJson (d : Bytes) (h : ∀ b ∈ d, b < 256) :
    jBytes (some (bytesJson d)) = some d := by
  show base64Decode (String.mk (base64Encode d)).toList = some d
  exact base64_roundtrip d h

/-- Each payload struct round-trips through its JSON marshalling. -/
theorem payload_roundtrip (pl : Payload) (h : pl.wf) :
    unmarshalPayload pl.kind (marshalPayload pl) = some pl := by
  cases pl with
  | execReq p =>
    obtain ⟨path, args, env, wd, tm, stream, user⟩ := p
    rw [show (Payload.execReq ⟨path, args, env, wd, tm, stream, user⟩).kind =
      .execReq from rfl, marshalPayload]
    by_cases h1 : env = [] <;> by_cases h2 : wd = "" <;>
      by_cases h3 : tm = 0 <;> by_cases h4 : user = "" <;>
      simp [unmarshalPayload, getField, jStr, jInt, jBool, jStrList, jEnv,
        mapMOpt_str, mapMOpt_env, envJson, omitEnv, omitStr, omitInt,
        h1, h2, h3, h4]
  | execResult r =>
    obtain ⟨code, stdout, stderr, dur, st, fin, em⟩ := r
    obtain ⟨hso, hse⟩ := h
    rw [show (Payload.execResult ⟨code, stdout, stderr, dur, st, fin, em⟩).kind =
      .execResult from rfl, marshalPayload]
    by_cases h1 : stdout = [] <;> by_cases h2 : stderr = [] <;>
      by_cases h3 : em = "" <;>
      simp [unmarshalPayload, getField, jStr, jInt, omitBytes, omitStr,
        h1, h2, h3, jBytes, jBytes_bytesJson stdout hso,
        jBytes_bytesJson stderr hse, base64_roundtrip stdout hso,
        base64_roundtrip stderr hse, bytesJson]
  | chunk d =>
    rw [show (Payload.chunk d).kind = .chunk from rfl, marshalPayload]
    simp [unmarshalPayload, getField, jBytes_bytesJson d h]
  | stdin d =>
    rw [show (Payload.stdin d).kind = .stdin from rfl, marshalPayload]
    simp [unmarshalPayload, getField, jBytes_bytesJson d h]
  | filePutReq p =>
    obtain ⟨path, mode⟩ := p
    rw [show (Payload.filePutReq ⟨path, mode⟩).kind = .filePutReq from rfl,
      marshalPayload]
    by_cases h1 : mode = 0 <;>
      simp [unmarshalPayload, getField, jStr, jInt, omitNat, h1]
  | fileGetReq p =>
    obtain ⟨path⟩ := p
    rw [show (Payload.fileGetReq ⟨path⟩).kind = .fileGetReq from rfl, marshalPayload]
    simp [unmarshalPayload, getField, jStr]
  | transferResult bytes err =>
    rw [show (Payload.transferResult bytes err).kind = .transferResult from rfl,
      marshalPayload]
    by_cases h1 : err = "" <;>
      simp [unmarshalPayload, getField, jStr, jInt, omitStr, h1]
  | errorMsg m =>
    rw [show (Payload.errorMsg m).kind = .errorMsg from rfl, marshalPayload]
    simp [unmarshalPayload, getField, jStr]
  | pong ts =>
    rw [show (Payload.pong ts).kind = .pong from rfl, marshalPayload]
    simp [unmarshalPayload, getField, jStr]

theorem readFrame_send (typ : String) (pl : Option Payload) :
    readFrameJson (sendFrameJson typ pl) = some ⟨typ, pl.map marshalPayload⟩ := by
  cases pl with
  | none => rfl
  | some payload => rfl

/-- **C10.** The frame codec round-trips: `readFrame` applied to the value
`frameWriter.send` produces recovers the same frame type and the raw
payload, every payload struct unmarshals from its own marshalling to an
equal value, and a sequence of sends on one writer decodes to exactly the
frames sent, in order, with no interleaving or loss. -/
theorem c10_codec_roundtrip :
    (∀ (typ : String) (pl : Option Payload),
      readFrameJson (sendFrameJson typ pl) = some ⟨typ, pl.map marshalPayload⟩) ∧
    (∀ pl : Payload, pl.wf → unmarshalPayload pl.kind (marshalPayload pl) = some pl) ∧
    (∀ frames : List (String × Option Payload),
      (sendAll frames).map readFrameJson =
        frames.map (fun f => some ⟨f.1, f.2.map marshalPayload⟩)) := by
  refine ⟨readFrame_send, payload_roundtrip, ?_⟩
  intro frames
  unfold sendAll
  rw [List.map_map]
  apply List.map_congr_left
  intro f _
  exact readFrame_send f.1 f.2

/-- Witness for `c10_codec_roundtrip` on a concrete chunk frame and a
two-frame sequence. -/
theorem c10_codec_roundtrip_witness :
    readFrameJson (sendFrameJson "stdout" (some (.chunk [0, 255]))) =
      some ⟨"stdout", some (marshalPayload (.chunk [0, 255]))⟩ ∧
    unmarshalPayload (Payload.chunk [0, 255]).kind (marshalPayload (.chunk [0, 255])) =
      some (.chunk [0, 255]) ∧
    (sendAll [("ping", none), ("stdout", some (.chunk [0, 255]))]).map readFrameJson =
      [some ⟨"ping", none⟩, some ⟨"stdout", some (marshalPayload (.chunk [0, 255]))⟩] := by
  refine ⟨c10_codec_roundtrip.1 "stdout" (some (.chunk [0, 255])),
    c10_codec_roundtrip.2.1 (.chunk [0, 255]) (by decide), ?_⟩
  exact c10_codec_roundtrip.2.2 [("ping", none), ("stdout", some (.chunk [0, 255]))]

end Container
